import Mathlib

/-!
# Verification of the `nps` (Nix-Package-Search) core pipeline

Shallow embedding of `src/main.rs` of the Nix-Package-Search repository.
Strings are modelled as `List Char` (`Str`), which makes the string
manipulations of the Rust code (splitting, padding, joining, trimming)
directly amenable to list reasoning.  Machine-specific aspects that the
claims do not touch (byte-level UTF-8 lengths of non-ASCII text, ANSI
terminal capabilities) are modelled at the character level.

The embedding follows the source function by function:
`get_matches`, `convert_case`, `sort_and_pad_matches`, `color_matches`,
`print_matches`, `parse_json_to_lines`, `refresh` and `main`
(modelled as `nps_main`).  The `grep` / `regex` crates used by the source
are external collaborators; they are modelled by a small regular-expression
engine (`RE`, Brzozowski derivatives) covering the constructs the claims
exercise, and by an explicit model of the line-oriented searcher
(each input line is emitted, terminated by a newline).
-/

namespace Nps

/-- Strings are modelled as lists of characters. -/
abbrev Str := List Char

/-- The newline character, the line separator used throughout the source. -/
def nl : Char := '\n'

/-- `max` of a list of naturals, `0` for the empty list: model of
`name_lengths.iter().max().unwrap_or(&0)` in `sort_and_pad_matches`. -/
def maxNat (l : List Nat) : Nat := l.foldr max 0

/-- Apply `f` to the last element of a list (identity on `[]`). -/
def updLast (f : α → α) : List α → List α
  | [] => []
  | [a] => [f a]
  | a :: b :: rest => a :: updLast f (b :: rest)

/-- Whitespace test backing the model of Rust `str::trim`
(`char::is_whitespace`; the characters that actually occur in the
pipeline are spaces and newlines). -/
def isWs (c : Char) : Bool := c.isWhitespace

/-- Model of Rust `str::trim_start`-like removal of leading whitespace. -/
def trimLeft (s : Str) : Str := s.dropWhile isWs

/-- Model of Rust `str::trim_end`-like removal of trailing whitespace. -/
def trimRight (s : Str) : Str := (s.reverse.dropWhile isWs).reverse

/-- Model of Rust `str::trim` as used in `print_matches`
(`out.join(&separator).trim()`). -/
def trim (s : Str) : Str := trimRight (trimLeft s)

/-- Split a string into its lines.  This is the semantics shared by Rust
`str::lines` and the `grep` searcher: lines are `'\n'`-separated, and a
final trailing newline does not start an extra empty line.
(`\r` handling is irrelevant here: the cache is produced without `\r`.) -/
def linesOf (s : Str) : List Str :=
  if s.getLast? = some nl then s.dropLast.splitOn nl
  else if s = [] then []
  else s.splitOn nl

/-- One line as emitted by the `grep` printer: the line followed by a
newline terminator. -/
def termLine (l : Str) : Str := l ++ [nl]

/-- Emission of a list of lines by the `grep` printer: every line is
printed, each terminated by a newline. -/
def emitLines (b : List Str) : Str := (b.map termLine).flatten

/-! ## Record parsing (`sort_and_pad_matches`, lines 485-491) -/

/-- Split at the first occurrence of `sep`, returning the pieces before
and after it, or `none` if `sep` does not occur. -/
def splitFirst (sep : Char) : Str → Option (Str × Str)
  | [] => none
  | c :: rest =>
    if c = sep then some ([], rest)
    else (splitFirst sep rest).map (fun p => (c :: p.1, p.2))

/-- Model of Rust `str::splitn(n, sep)`: at most `n` pieces, the last
piece holding the unsplit remainder; the empty string yields `[""]`. -/
def splitn (n : Nat) (sep : Char) (s : Str) : List Str :=
  match n with
  | 0 => []
  | 1 => [s]
  | n + 1 =>
    match splitFirst sep s with
    | none => [s]
    | some (pre1, post1) => pre1 :: splitn n sep post1

/-- Record parsing from one cache line, as in `sort_and_pad_matches`:
`line.splitn(3, ' ')` with `.get(i).unwrap_or(&"")` for the three
fields (name, version, description). -/
def parseRecord (line : Str) : Str × Str × Str :=
  let parts := splitn 3 ' ' line
  (parts.getD 0 [], parts.getD 1 [], parts.getD 2 [])

/-! ## Case conversion and classification -/

/-- `convert_case` from the source: lowercase the string when
`ignore_case` is set, identity otherwise. -/
def convert_case (s : Str) (ignore_case : Bool) : Str :=
  if ignore_case then s.map Char.toLower else s

/-- Column-selection setting (`ColumnsChoice` in the source). -/
inductive ColumnsChoice where
  | all
  | nothing
  | version
  | description
deriving DecidableEq, Repr

/-- The colors configurable for the three match types (`Colors`). -/
inductive Colors where
  | black
  | blue
  | green
  | red
  | cyan
  | magenta
  | yellow
  | white
deriving DecidableEq, Repr

/-- The three relevance tiers a matched record is sorted into. -/
inductive MatchKind where
  | exact
  | direct
  | indirect
deriving DecidableEq, Repr

/-- The configuration fields of `Cli` that the core pipeline reads.
`search_term` is modelled as present: the search path is only reached
when clap has enforced the presence of the positional argument. -/
structure Cli where
  columns : ColumnsChoice
  experimental : Bool
  flip : Bool
  ignore_case : Bool
  separate : Bool
  search_term : Str
  exact_color : Colors
  direct_color : Colors
  indirect_color : Colors
deriving Repr

/-- Left-justified padding to a minimum width, the semantics of the Rust
format specifier used in `sort_and_pad_matches` (no truncation). -/
def pad (s : Str) (w : Nat) : Str := s ++ List.replicate (w - s.length) ' '

/-- Assembly of one output line from the three fields, following the
`match &cli.columns` in `sort_and_pad_matches` (lines 493-501).  Note
the trailing space in the name-only branch, from the source. -/
def assembleLine (cols : ColumnsChoice) (name_padding version_padding : Nat)
    (name version description : Str) : Str :=
  match cols with
  | .all => pad name name_padding ++ [' ', ' '] ++ pad version version_padding
      ++ [' ', ' '] ++ description
  | .version => pad name name_padding ++ [' ', ' '] ++ version
  | .description => pad name name_padding ++ [' ', ' '] ++ description
  | .nothing => name ++ [' ']

/-- Classification of one record by its name, following the
`match cli.experimental` in `sort_and_pad_matches` (lines 503-531):
in experimental (flakes) mode the converted name is compared with the
converted term directly; in channels mode it is compared with the term
prefixed by `nixos.` or `nixpkgs.`. -/
def classify (cli : Cli) (name : Str) : MatchKind :=
  let t := convert_case cli.search_term cli.ignore_case
  let n := convert_case name cli.ignore_case
  match cli.experimental with
  | true =>
    if n = t then .exact
    else if t.isPrefixOf n then .direct
    else .indirect
  | false =>
    if n = "nixos.".data ++ t ∨ n = "nixpkgs.".data ++ t then .exact
    else if ("nixos.".data ++ t).isPrefixOf n ∨ ("nixpkgs.".data ++ t).isPrefixOf n then .direct
    else .indirect

/-- The global name-column width of `sort_and_pad_matches`: the maximum
name length over all matched lines. -/
def namePaddingOf (ls : List Str) : Nat :=
  maxNat (ls.map (fun l => (parseRecord l).1.length))

/-- The global version-column width of `sort_and_pad_matches`: the
maximum version length over all matched lines. -/
def versionPaddingOf (ls : List Str) : Nat :=
  maxNat (ls.map (fun l => (parseRecord l).2.1.length))

/-- Rendering of one matched line with the given global column widths. -/
def renderLine (cli : Cli) (name_padding version_padding : Nat) (line : Str) : Str :=
  let r := parseRecord line
  assembleLine cli.columns name_padding version_padding r.1 r.2.1 r.2.2

/-- The bucket-sorting loop of `sort_and_pad_matches` (lines 485-532):
each line is rendered with the global paddings and pushed onto the
bucket selected by its classification, preserving input order. -/
def sortLoop (cli : Cli) (name_padding version_padding : Nat) :
    List Str → List Str × List Str × List Str
  | [] => ([], [], [])
  | line :: rest =>
    let a := renderLine cli name_padding version_padding line
    let (e, d, i) := sortLoop cli name_padding version_padding rest
    match classify cli (parseRecord line).1 with
    | .exact => (a :: e, d, i)
    | .direct => (e, a :: d, i)
    | .indirect => (e, d, a :: i)

/-- `sort_and_pad_matches` from the source: compute the global column
widths over all matched lines, then render and bucket every line.
The `Result` wrapper of the source is dropped: with the search term
present (enforced by clap) the function cannot fail. -/
def sort_and_pad_matches (cli : Cli) (raw_matches : Str) :
    List Str × List Str × List Str :=
  let ls := linesOf raw_matches
  sortLoop cli (namePaddingOf ls) (versionPaddingOf ls) ls

/-! ## Regular expressions (model of the `regex` / `grep-regex` crates)

The source compiles the raw search term as a regular expression
(`RegexMatcherBuilder::new().case_insensitive(..).build(search_term)`),
both for selecting cache lines (`get_matches`) and for highlighting
(`color_matches`).  The engine below models the fragment of the crate's
syntax that the development exercises: literals, `.`, grouping,
alternation and the `*`/`+`/`?` quantifiers, with an escape `\c`.
Matching is by Brzozowski derivatives; case-insensitivity folds both
sides through `Char.toLower` as in `convert_case`. -/

/-- Regular-expression abstract syntax. -/
inductive RE where
  | emp
  | eps
  | chr (c : Char)
  | dot
  | alt (r₁ r₂ : RE)
  | cat (r₁ r₂ : RE)
  | star (r : RE)
deriving DecidableEq, Repr

/-- Does the regular expression accept the empty string? -/
def nullable : RE → Bool
  | .emp => false
  | .eps => true
  | .chr _ => false
  | .dot => false
  | .alt a b => nullable a || nullable b
  | .cat a b => nullable a && nullable b
  | .star _ => true

/-- Character comparison under the case-insensitivity setting. -/
def cmpChar (ic : Bool) (a b : Char) : Bool :=
  if ic then a.toLower = b.toLower else a = b

/-- Brzozowski derivative of a regular expression by one character. -/
def deriv (ic : Bool) : RE → Char → RE
  | .emp, _ => .emp
  | .eps, _ => .emp
  | .chr d, c => if cmpChar ic d c then .eps else .emp
  | .dot, c => if c = nl then .emp else .eps
  | .alt a b, c => .alt (deriv ic a c) (deriv ic b c)
  | .cat a b, c =>
    if nullable a then .alt (.cat (deriv ic a c) b) (deriv ic b c)
    else .cat (deriv ic a c) b
  | .star a, c => .cat (deriv ic a c) (.star a)

/-- Whole-string match: fold the derivative over the string and test
nullability. -/
def matchRE (ic : Bool) (r : RE) (s : Str) : Bool :=
  nullable (s.foldl (deriv ic) r)

/-- Length of the longest prefix of `s` matched by `r`, if any prefix
(possibly empty) matches. -/
def longestMatch (ic : Bool) : RE → Str → Option Nat
  | r, [] => if nullable r then some 0 else none
  | r, c :: rest =>
    match longestMatch ic (deriv ic r c) rest with
    | some n => some (n + 1)
    | none => if nullable r then some 0 else none

/-- Unanchored search: does `r` match some substring of `s`?  This is
what selects a cache line in `get_matches`. -/
def reSearch (ic : Bool) (r : RE) : Str → Bool
  | [] => (longestMatch ic r []).isSome
  | s@(_ :: rest) => (longestMatch ic r s).isSome || reSearch ic r rest

/-- Parsing modes of the recursive-descent regex reader:
alternation, concatenation (with accumulator loop), postfix
quantifiers (with accumulator loop) and atoms. -/
inductive PMode where
  | alt
  | cat
  | catLoop
  | post
  | postLoop
  | atom

/-- Fuel-based recursive-descent reader for the modelled regex fragment.
Returns the parsed expression (the accumulator argument `acc` is used by
the loop modes) and the unconsumed input, or `none` on a syntax error
(as the crate's `build` does, e.g. on the unbalanced `"("`). -/
def parseM : Nat → PMode → RE → Str → Option (RE × Str)
  | 0, _, _, _ => none
  | fuel + 1, m, acc, s =>
    match m, s with
    | .atom, '(' :: rest =>
      match parseM fuel .alt .eps rest with
      | some (r, ')' :: rest2) => some (r, rest2)
      | _ => none
    | .atom, '\\' :: c :: rest => some (.chr c, rest)
    | .atom, '.' :: rest => some (.dot, rest)
    | .atom, c :: rest =>
      if c = ')' ∨ c = '|' ∨ c = '*' ∨ c = '+' ∨ c = '?' ∨ c = '\\' then none
      else some (.chr c, rest)
    | .atom, [] => none
    | .post, _ =>
      match parseM fuel .atom acc s with
      | some (r, rest) => parseM fuel .postLoop r rest
      | none => none
    | .postLoop, '*' :: rest => parseM fuel .postLoop (.star acc) rest
    | .postLoop, '+' :: rest => parseM fuel .postLoop (.cat acc (.star acc)) rest
    | .postLoop, '?' :: rest => parseM fuel .postLoop (.alt acc .eps) rest
    | .postLoop, _ => some (acc, s)
    | .cat, [] => some (.eps, s)
    | .cat, c :: _ =>
      if c = ')' ∨ c = '|' then some (.eps, s)
      else
        match parseM fuel .post .eps s with
        | some (r, rest) => parseM fuel .catLoop r rest
        | none => none
    | .catLoop, [] => some (acc, s)
    | .catLoop, c :: _ =>
      if c = ')' ∨ c = '|' then some (acc, s)
      else
        match parseM fuel .post .eps s with
        | some (r, rest) => parseM fuel .catLoop (.cat acc r) rest
        | none => none
    | .alt, _ =>
      match parseM fuel .cat .eps s with
      | some (r, '|' :: rest) =>
        match parseM fuel .alt .eps rest with
        | some (r2, rest2) => some (.alt r r2, rest2)
        | none => none
      | some (r, rest) => some (r, rest)
      | none => none

/-- Model of `RegexMatcherBuilder::build` on the raw search term:
parse the whole term as a regular expression, or fail. -/
def parseRE (term : Str) : Option RE :=
  match parseM (term.length * 4 + 16) .alt .eps term with
  | some (r, []) => some r
  | _ => none

/-! ## `get_matches` (lines 416-444) -/

/-- `get_matches` from the source: build the regex from the search term
(failing, as the source does, when the term is not a valid regex) and
collect every line of the cache content that the regex matches
somewhere, each emitted with its newline terminator by the printer. -/
def get_matches (cli : Cli) (content : Str) : Except Str Str :=
  match parseRE cli.search_term with
  | none => .error "Can't build regex".data
  | some r =>
    .ok (emitLines ((linesOf content).filter (reSearch cli.ignore_case r)))

/-! ## Highlighting (`color_matches`, lines 542-633)

The source prints every bucket through a `grep` searcher whose matcher
is `.*` (so every line is emitted) with a printer that wraps every
occurrence of the search-term regex in the bucket's ANSI emphasis.
`hlLine` models that per-line pass: scan left to right, wrap each
leftmost (longest) non-empty match in `pre`/`post`, emit everything
else verbatim.  Zero-length regex matches mark nothing. -/

/-- Highlight every non-overlapping occurrence of `r` in one line. -/
def hlLine (ic : Bool) (r : RE) (pre post : Str) : Str → Str
  | [] => []
  | c :: rest =>
    match longestMatch ic r (c :: rest) with
    | some (n + 1) =>
      pre ++ (c :: rest).take (n + 1) ++ post ++ hlLine ic r pre post (rest.drop n)
    | _ => c :: hlLine ic r pre post rest
  termination_by s => s.length
  decreasing_by
  · simp only [List.length_drop, List.length_cons]
    omega
  · simp

/-- ANSI foreground code of each color, as rendered by `termcolor`. -/
def ansiCode : Colors → Nat
  | .black => 30
  | .red => 31
  | .green => 32
  | .yellow => 33
  | .blue => 34
  | .magenta => 35
  | .cyan => 36
  | .white => 37

/-- Opening emphasis escape written by the printer before a match:
reset, bold, then the foreground color (as observed in the unit test
`test_color_matches` of the source). -/
def emphPre (c : Colors) : Str :=
  "\x1b[0m\x1b[1m".data ++ ('\x1b' :: '[' :: Nat.toDigits 10 (ansiCode c) ++ ['m'])

/-- Closing emphasis escape written by the printer after a match. -/
def emphPost : Str := "\x1b[0m".data

/-- Emission of one bucket by the colored searcher: split the joined
bucket back into lines (matcher `.*` prints all of them), highlight
each when color is enabled, and terminate each with a newline. -/
def searchEmitHl (colored ic : Bool) (r : RE) (pre post : Str) (input : Str) : Str :=
  ((linesOf input).map
    (fun l => termLine (if colored then hlLine ic r pre post l else l))).flatten

/-- `color_matches` from the source: build the search-term regex
(failing as the source does on an invalid term), reverse every bucket
when `flip` is off (lines 596-601), and emit the three buckets into
their buffers with their per-bucket emphasis.  `colored` is the
`termcolor::ColorChoice` collapsed to whether escapes are written. -/
def color_matches (cli : Cli) (colored : Bool)
    (sorted_padded_matches : List Str × List Str × List Str) :
    Except Str (Str × Str × Str) :=
  match parseRE cli.search_term with
  | none => .error "Can't build regex".data
  | some r =>
    let e0 := sorted_padded_matches.1
    let d0 := sorted_padded_matches.2.1
    let i0 := sorted_padded_matches.2.2
    let e := if cli.flip then e0 else e0.reverse
    let d := if cli.flip then d0 else d0.reverse
    let i := if cli.flip then i0 else i0.reverse
    .ok
      (searchEmitHl colored cli.ignore_case r (emphPre cli.exact_color) emphPost
        ([nl].intercalate e),
       searchEmitHl colored cli.ignore_case r (emphPre cli.direct_color) emphPost
        ([nl].intercalate d),
       searchEmitHl colored cli.ignore_case r (emphPre cli.indirect_color) emphPost
        ([nl].intercalate i))

/-! ## Output assembly (`print_matches`, lines 636-661) -/

/-- `print_matches` from the source: keep the non-empty buffers in
order exact, direct, indirect; reverse that order when `flip` is off;
join with a blank-line separator when `separate` is set; trim; and
write the result followed by the final newline of `writeln!`. -/
def print_matches (cli : Cli) (colored_matches : Str × Str × Str) : Str :=
  let out0 := [colored_matches.1, colored_matches.2.1, colored_matches.2.2].filter
    (fun content => !content.isEmpty)
  let out := if cli.flip then out0 else out0.reverse
  let sep : Str := if cli.separate then [nl] else []
  trim (sep.intercalate out) ++ [nl]

/-! ## Cache refresh (`parse_json_to_lines` and `refresh`, lines 663-784) -/

/-- JSON package payload (`Package` in the source). -/
structure Package where
  version : Str
  description : Str
deriving DecidableEq, Repr

/-- One cache line from a JSON entry: drop the first two dot-separated
segments of the qualified identifier (`splitn(3, '.')`, index 2, an
error when missing), then `"name version description"`. -/
def jsonLine (entry : Str × Package) : Except Str Str :=
  match (splitn 3 '.' entry.1).get? 2 with
  | none => .error "Can't get package name from JSON.".data
  | some name => .ok (name ++ [' '] ++ entry.2.version ++ [' '] ++ entry.2.description)

/-- The collection loop of `parse_json_to_lines`: the first entry whose
identifier has fewer than three segments aborts with an error. -/
def collectJsonLines : List (Str × Package) → Except Str (List Str)
  | [] => .ok []
  | entry :: rest => do
    let l ← jsonLine entry
    let ls ← collectJsonLines rest
    .ok (l :: ls)

/-- Lexicographic (code-point) order on strings, the `Ord` used by Rust
`Vec::<String>::sort`. -/
def strLe : Str → Str → Bool
  | [], _ => true
  | _ :: _, [] => false
  | a :: as, b :: bs => if a = b then strLe as bs else decide (a < b)

/-- Stable insertion of one string into a sorted list. -/
def insertSorted (x : Str) : List Str → List Str
  | [] => [x]
  | y :: ys => if strLe x y then x :: y :: ys else y :: insertSorted x ys

/-- Stable sort (model of `lines.sort()`). -/
def insSort : List Str → List Str
  | [] => []
  | x :: xs => insertSorted x (insSort xs)

/-- `parse_json_to_lines` from the source, taking the `serde_json`
decode of the captured stdout as input (`none` models undecodable
JSON): produce one line per package, sort them, join with newlines. -/
def parse_json_to_lines (decoded : Option (List (Str × Package))) : Except Str Str :=
  match decoded with
  | none => .error "Can't parse JSON".data
  | some entries => do
    let ls ← collectJsonLines entries
    .ok ([nl].intercalate (insSort ls))

/-- Effect of the normalization regex of `refresh` (line 748),
`^([^ ]+) +([^ ]+) +(.*)$` replaced by `$1 $2 $3`, on one line that
matches within itself.  The character classes are space-only
(`[^ ]` / `' '`), so runs of other whitespace such as tabs belong to
the `[^ ]+` groups.  A line of the form nonspace-run, space-run,
nonspace-run, space-run, rest is rewritten with the two space runs
collapsed to single spaces; other lines are returned unchanged (the
full `replace_all` over the whole stdout is `normalizeCache` below,
whose matches may also span lines). -/
def normalizeLine (l : Str) : Str :=
  let p1 := l.takeWhile (fun c => c ≠ ' ')
  let r1 := l.dropWhile (fun c => c ≠ ' ')
  let s1 := r1.takeWhile (fun c => c = ' ')
  let r2 := r1.dropWhile (fun c => c = ' ')
  let p2 := r2.takeWhile (fun c => c ≠ ' ')
  let r3 := r2.dropWhile (fun c => c ≠ ' ')
  let s2 := r3.takeWhile (fun c => c = ' ')
  let rest := r3.dropWhile (fun c => c = ' ')
  if p1 ≠ [] ∧ s1 ≠ [] ∧ p2 ≠ [] ∧ s2 ≠ [] then
    p1 ++ [' '] ++ p2 ++ [' '] ++ rest
  else l

/-- Does the anchored pattern `^([^ ]+) +([^ ]+) +(.*)$` match at this
position (a `^` position of the scan)?  The four leading components are
matched greedily and, because each is a maximal run, no backtracking
can recover from a failure: the pattern matches here exactly when the
four runs are all non-empty.  `[^ ]` also matches `'\n'`, so the first
two groups may run across line boundaries; `(.*)` stops before the
next newline, where `$` matches. -/
def lineMatchAt (s : Str) : Prop :=
  s.takeWhile (fun c => c ≠ ' ') ≠ []
  ∧ (s.dropWhile (fun c => c ≠ ' ')).takeWhile (fun c => c = ' ') ≠ []
  ∧ ((s.dropWhile (fun c => c ≠ ' ')).dropWhile (fun c => c = ' ')).takeWhile
      (fun c => c ≠ ' ') ≠ []
  ∧ (((s.dropWhile (fun c => c ≠ ' ')).dropWhile (fun c => c = ' ')).dropWhile
      (fun c => c ≠ ' ')).takeWhile (fun c => c = ' ') ≠ []

instance (s : Str) : Decidable (lineMatchAt s) :=
  inferInstanceAs (Decidable (_ ≠ _ ∧ _ ≠ _ ∧ _ ≠ _ ∧ _ ≠ _))

/-- Replacement text `$1 $2 $3` of a successful match of the pattern:
the two captured `[^ ]+` runs joined by single spaces, then the `(.*)`
remainder (up to the next newline) verbatim. -/
def subOut (s : Str) : Str :=
  s.takeWhile (fun c => c ≠ ' ') ++ [' ']
    ++ ((s.dropWhile (fun c => c ≠ ' ')).dropWhile (fun c => c = ' ')).takeWhile
        (fun c => c ≠ ' ') ++ [' ']
    ++ ((((s.dropWhile (fun c => c ≠ ' ')).dropWhile (fun c => c = ' ')).dropWhile
        (fun c => c ≠ ' ')).dropWhile (fun c => c = ' ')).takeWhile (fun c => c ≠ nl)

/-- The unconsumed input after a successful match of the pattern: the
match extends through the `(.*)` group, i.e. up to the next newline or
the end of the input. -/
def subTail (s : Str) : Str :=
  ((((s.dropWhile (fun c => c ≠ ' ')).dropWhile (fun c => c = ' ')).dropWhile
      (fun c => c ≠ ' ')).dropWhile (fun c => c = ' ')).dropWhile (fun c => c ≠ nl)

/-- The multi-line `replace_all` of `refresh` (lines 748-752) over the
whole captured stdout.  Matches can only start at `^` positions (the
start of the input and every position after a newline); the scan tries
the current position, emits either the replacement of a match (which
always ends at a line end) or, when the pattern does not match here,
the current line verbatim, and resumes after the next newline — the
next `^` position either way.  The character at which a match or a
skipped line stops is the newline itself, emitted verbatim. -/
def replaceAll (s : Str) : Str :=
  if lineMatchAt s then
    match heq : subTail s with
    | [] => subOut s
    | c :: t => subOut s ++ [c] ++ replaceAll t
  else
    match heq : s.dropWhile (fun c => c ≠ nl) with
    | [] => s
    | c :: t => s.takeWhile (fun c => c ≠ nl) ++ [c] ++ replaceAll t
  termination_by s.length
  decreasing_by
  · have h1 : (subTail s).length ≤ s.length := by
      unfold subTail
      exact le_trans (List.Sublist.length_le (List.dropWhile_sublist _))
        (le_trans (List.Sublist.length_le (List.dropWhile_sublist _))
          (le_trans (List.Sublist.length_le (List.dropWhile_sublist _))
            (le_trans (List.Sublist.length_le (List.dropWhile_sublist _))
              (List.Sublist.length_le (List.dropWhile_sublist _)))))
    rw [heq] at h1
    simp only [List.length_cons] at h1
    omega
  · have h1 : (s.dropWhile (fun c => c ≠ nl)).length ≤ s.length :=
      List.Sublist.length_le (List.dropWhile_sublist _)
    rw [heq] at h1
    simp only [List.length_cons] at h1
    omega

/-- The whole-cache normalization of plain-text mode: the single
multi-line `replace_all` over the captured stdout. -/
def normalizeCache (s : Str) : Str := replaceAll s

/-- Outcome of launching the external listing command, as seen by
`refresh`: the captured streams (`none` = not valid UTF-8) and, for
experimental mode, the `serde_json` decode of stdout (`none` =
undecodable JSON). -/
structure CmdResult where
  stdout? : Option Str
  stderr? : Option Str
  json? : Option (List (Str × Package))

/-- `refresh` from the source, as the pure computation of the new cache
content: subprocess launch failure (`launch = none`), undecodable
stdout/stderr, stdout shorter than the fixed `10_000` threshold, and
(in experimental mode) undecodable JSON all abort with an error before
anything is written; otherwise the normalized content is produced.
stderr warnings are logged only and never cause failure. -/
def refresh (experimental : Bool) (launch : Option CmdResult) : Except Str Str :=
  match launch with
  | none => .error "command failed".data
  | some out =>
    match out.stdout? with
    | none => .error "Can't convert stdout to UTF8".data
    | some stdout =>
      match out.stderr? with
      | none => .error "Can't convert stderr to UTF8".data
      | some _ =>
        if stdout.length < 10000 then
          .error "Cache seems too small.".data
        else
          match experimental with
          | true => parse_json_to_lines out.json?
          | false => .ok (normalizeCache stdout)

/-- The cache file after a refresh attempt.  The source writes the new
content to a `NamedTempFile` in the cache folder and then `persist`s
(atomically renames) it over the destination, so the cache file moves
from `prior` to the new content in one step and holds `prior`,
untouched, on every error path (all of which return before the
temporary file is created). -/
def refreshCacheAfter (experimental : Bool) (launch : Option CmdResult)
    (prior : Option Str) : Option Str :=
  match refresh experimental launch with
  | .error _ => prior
  | .ok c => some c

/-! ## `main` (lines 786-911) -/

/-- Process exit status. -/
inductive ExitKind where
  | success
  | failure
deriving DecidableEq, Repr

/-- The search pipeline of `main` after the cache content has been
read: `get_matches` (failure exit on error), the early failure exit on
zero matches (line 885), then `sort_and_pad_matches`, `color_matches`
and `print_matches`.  Returns the printed output, `none` for the
zero-match early exit. -/
def searchRun (cli : Cli) (colored : Bool) (content : Str) :
    Except Str (Option Str) :=
  match get_matches cli content with
  | .error e => .error e
  | .ok raw =>
    if raw = [] then .ok none
    else
      match color_matches cli colored (sort_and_pad_matches cli raw) with
      | .error e => .error e
      | .ok bufs => .ok (some (print_matches cli bufs))

/-- `main` from the source, modelled over an explicit environment:
`refreshFlag` is `-r`, `cacheExists` whether the cache file exists,
`prior` the readable cache content (`none` = unreadable), `launch` the
external command outcome used if a refresh runs.  Returns the exit
status and the cache file content after the run. -/
def nps_main (cli : Cli) (refreshFlag cacheExists : Bool) (prior : Option Str)
    (launch : Option CmdResult) (colored : Bool) : ExitKind × Option Str :=
  if refreshFlag ∨ cacheExists = false then
    match refresh cli.experimental launch with
    | .error _ => (.failure, prior)
    | .ok c =>
      if refreshFlag then (.success, some c)
      else
        match searchRun cli colored c with
        | .error _ => (.failure, some c)
        | .ok none => (.failure, some c)
        | .ok (some _) => (.success, some c)
  else
    match prior with
    | none => (.failure, prior)
    | some content =>
      match searchRun cli colored content with
      | .error _ => (.failure, prior)
      | .ok none => (.failure, prior)
      | .ok (some _) => (.success, prior)

/-! ## Derived views used by the theorems -/

/-- The classification of one raw cache line (by its parsed name). -/
def kindOf (cli : Cli) (line : Str) : MatchKind :=
  classify cli (parseRecord line).1

/-- The sequence of blocks, each a list of rendered lines, that
`color_matches` (bucket reversal, lines 596-601) followed by
`print_matches` (filtering of empty buffers and order reversal, lines
638-649) arranges for printing, read off from those two functions. -/
def printedBlocks (flip : Bool) (e d i : List Str) : List (List Str) :=
  let e1 := if flip then e else e.reverse
  let d1 := if flip then d else d.reverse
  let i1 := if flip then i else i.reverse
  let bl := [e1, d1, i1].filter (fun b => !b.isEmpty)
  if flip then bl else bl.reverse

/-- Final textual rendering of a sequence of blocks, as `print_matches`
produces it: emit each block's lines, join with the optional blank-line
separator, trim, and append the `writeln!` newline. -/
def renderBlocks (separate : Bool) (bs : List (List Str)) : Str :=
  let sep : Str := if separate then [nl] else []
  trim (sep.intercalate (bs.map emitLines)) ++ [nl]

/-- Specification of a correct highlighting of `l` into `out`: `l`
decomposes into alternating unmarked text and matched spans, `out` is
the same decomposition with every non-empty matched span wrapped in
`pre`/`post`, and every marked span is a genuine match of the term
regex.  Nothing outside the matched spans is altered. -/
def HlSpec (ic : Bool) (r : RE) (pre post : Str) (l out : Str) : Prop :=
  ∃ segs : List (Str × Str),
    (∀ p ∈ segs, p.2 = [] ∨ matchRE ic r p.2 = true) ∧
    l = (segs.map (fun p => p.1 ++ p.2)).flatten ∧
    out = (segs.map (fun p => p.1 ++ (if p.2 = [] then [] else pre ++ p.2 ++ post))).flatten

/-- The normalization step as the specification sentence words it, with
`\S`/`\s` character classes (any whitespace) instead of the source's
space-only `[^ ]`/`' '` classes.  Used only to exhibit where the two
transformations disagree. -/
def specNormalizeLine (l : Str) : Str :=
  let p1 := l.takeWhile (fun c => !isWs c)
  let r1 := l.dropWhile (fun c => !isWs c)
  let s1 := r1.takeWhile (fun c => isWs c)
  let r2 := r1.dropWhile (fun c => isWs c)
  let p2 := r2.takeWhile (fun c => !isWs c)
  let r3 := r2.dropWhile (fun c => !isWs c)
  let s2 := r3.takeWhile (fun c => isWs c)
  let rest := r3.dropWhile (fun c => isWs c)
  if p1 ≠ [] ∧ s1 ≠ [] ∧ p2 ≠ [] ∧ s2 ≠ [] then
    p1 ++ [' '] ++ p2 ++ [' '] ++ rest
  else l

/-! ## Concrete configurations used in counterexamples and witnesses -/

/-- A default-shaped configuration with the given term and modes. -/
def mkCli (experimental ignore_case : Bool) (term : Str) : Cli :=
  { columns := .all, experimental := experimental, flip := false,
    ignore_case := ignore_case, separate := true, search_term := term,
    exact_color := .magenta, direct_color := .blue, indirect_color := .green }

/-- Channels-mode configuration searching for `foo` (claim C2). -/
def cliChan : Cli := mkCli false true "foo".data

/-- Flakes-mode configuration whose term matches nothing (claim C1). -/
def cliNoMatch : Cli := mkCli true true "zzz".data

/-- Configuration whose term `(` is not a valid regex (claim C10). -/
def cliLparen : Cli := mkCli true true "(".data

/-- Configuration with the regex term `f.o` (claim C10). -/
def cliDotTerm : Cli := mkCli true true "f.o".data

/-- Flakes-mode configuration searching for `abcde` (claim C6). -/
def cliAbcde : Cli := mkCli true true "abcde".data

/-- Literal (non-regex) substring containment, used to contrast regex
selection with literal matching in claim C10. -/
def litContains (needle : Str) : Str → Bool
  | [] => needle.isEmpty
  | c :: t => needle.isPrefixOf (c :: t) || litContains needle t

/-! ## Basic lemmas about the record parser -/

theorem splitFirst_eq_none (sep : Char) : ∀ s : Str, sep ∉ s → splitFirst sep s = none := by
  intro s
  induction s with
  | nil => intro _; rfl
  | cons c rest ih =>
    intro h
    have hc : ¬ c = sep := fun he => h (he ▸ List.mem_cons_self c rest)
    have hr : sep ∉ rest := fun hm => h (List.mem_cons_of_mem c hm)
    simp [splitFirst, hc, ih hr]

theorem splitn_ne_nil (sep : Char) : ∀ (n : Nat) (s : Str), 0 < n → splitn n sep s ≠ [] := by
  intro n s h
  match n with
  | 1 => simp [splitn]
  | n + 2 =>
    cases hsf : splitFirst sep s <;> simp [splitn, hsf]

theorem splitn_length_le (sep : Char) : ∀ (n : Nat) (s : Str), (splitn n sep s).length ≤ n
  | 0, s => by simp [splitn]
  | 1, s => by simp [splitn]
  | n + 2, s => by
    cases hsf : splitFirst sep s with
    | none => simp [splitn, hsf]
    | some p =>
      have := splitn_length_le sep (n + 1) p.2
      simp [splitn, hsf]
      omega

/-- C5: record parsing is a total function over arbitrary input lines —
`parseRecord` always yields the three fields (between one and three
pieces come out of the split), any missing trailing fields are the
empty string, and a line without any space parses as a bare name with
empty version and description. -/
theorem c5_parsing_total (line : Str) :
    (splitn 3 ' ' line ≠ [] ∧ (splitn 3 ' ' line).length ≤ 3)
    ∧ parseRecord line
      = ((splitn 3 ' ' line).getD 0 [], (splitn 3 ' ' line).getD 1 [],
         (splitn 3 ' ' line).getD 2 [])
    ∧ ((splitn 3 ' ' line).length < 3 → (parseRecord line).2.2 = [])
    ∧ ((splitn 3 ' ' line).length < 2 → (parseRecord line).2.1 = [])
    ∧ (' ' ∉ line → parseRecord line = (line, [], [])) := by
  refine ⟨⟨splitn_ne_nil ' ' 3 line (by norm_num), splitn_length_le ' ' 3 line⟩, rfl, ?_, ?_, ?_⟩
  · intro h
    simp only [parseRecord]
    exact List.getD_eq_default _ _ (by omega)
  · intro h
    simp only [parseRecord]
    exact List.getD_eq_default _ _ (by omega)
  · intro h
    simp [parseRecord, splitn, splitFirst_eq_none ' ' line h]

/-- Witness for C5 at the two-field line `"a b"`: the description
defaults to the empty string. -/
theorem c5_parsing_total_witness :
    (splitn 3 ' ' "a b".data).length < 3 ∧ (parseRecord "a b".data).2.2 = [] :=
  ⟨by decide, (c5_parsing_total "a b".data).2.2.1 (by decide)⟩

/-! ## Classification lemmas (claim C2) -/

/-- C2 counterexample: in channels (namespace) mode, a record whose
normalized name equals the normalized search term is classified
Indirect, not Exact — `classify` only accepts the `nixos.`/`nixpkgs.`
prefixed forms as Exact there. -/
theorem c2_counterexample :
    cliChan.experimental = false
    ∧ convert_case "foo".data cliChan.ignore_case
      = convert_case cliChan.search_term cliChan.ignore_case
    ∧ classify cliChan "foo".data = .indirect
    ∧ ¬ classify cliChan "foo".data = .exact := by
  refine ⟨rfl, rfl, by decide, by decide⟩

/-- C2 (amended): in flakes mode a record whose normalized name equals
the normalized term is always Exact; in channels (namespace) mode a
record is Exact exactly when its normalized name is the term prefixed
by `nixos.` or `nixpkgs.`, and a normalized name equal to the bare term
is classified Indirect. -/
theorem c2_exact_classification (cli : Cli) (name : Str) :
    (cli.experimental = true →
      convert_case name cli.ignore_case = convert_case cli.search_term cli.ignore_case →
      classify cli name = .exact)
    ∧ (cli.experimental = false →
        (classify cli name = .exact ↔
          convert_case name cli.ignore_case
            = "nixos.".data ++ convert_case cli.search_term cli.ignore_case
          ∨ convert_case name cli.ignore_case
            = "nixpkgs.".data ++ convert_case cli.search_term cli.ignore_case))
    ∧ (cli.experimental = false →
        convert_case name cli.ignore_case = convert_case cli.search_term cli.ignore_case →
        classify cli name = .indirect) := by
  refine ⟨?_, ?_, ?_⟩
  · intro he hn
    simp [classify, he, hn]
  · intro he
    simp only [classify, he]
    split_ifs with h1 h2 <;> simp_all
  · intro he hn
    have hlen : ∀ (pre : Str), pre ≠ [] →
        ¬ (pre ++ convert_case cli.search_term cli.ignore_case).isPrefixOf
          (convert_case name cli.ignore_case) = true := by
      intro pre hpre hp
      rw [List.isPrefixOf_iff_prefix] at hp
      have h1 := hp.length_le
      rw [hn] at h1
      simp only [List.length_append] at h1
      have h2 : 0 < pre.length := List.length_pos.mpr hpre
      omega
    have heq : ∀ (pre : Str), pre ≠ [] →
        ¬ convert_case name cli.ignore_case
          = pre ++ convert_case cli.search_term cli.ignore_case := by
      intro pre hpre hp
      have h1 := congrArg List.length hp
      rw [hn] at h1
      simp only [List.length_append] at h1
      have h2 : 0 < pre.length := List.length_pos.mpr hpre
      omega
    have hno1 : ¬ (convert_case name cli.ignore_case
          = "nixos.".data ++ convert_case cli.search_term cli.ignore_case
        ∨ convert_case name cli.ignore_case
          = "nixpkgs.".data ++ convert_case cli.search_term cli.ignore_case) := by
      push_neg
      exact ⟨heq "nixos.".data (by decide), heq "nixpkgs.".data (by decide)⟩
    have hno2 : ¬ (("nixos.".data ++ convert_case cli.search_term cli.ignore_case).isPrefixOf
          (convert_case name cli.ignore_case) = true
        ∨ ("nixpkgs.".data ++ convert_case cli.search_term cli.ignore_case).isPrefixOf
          (convert_case name cli.ignore_case) = true) := by
      push_neg
      exact ⟨hlen "nixos.".data (by decide), hlen "nixpkgs.".data (by decide)⟩
    simp only [classify, he]
    rw [if_neg hno1, if_neg hno2]

/-- Witness for C2 (amended), exercising all three conjuncts at
concrete inputs. -/
theorem c2_exact_classification_witness :
    classify (mkCli true true "foo".data) "FOO".data = .exact
    ∧ classify cliChan "nixos.foo".data = .exact
    ∧ classify cliChan "foo".data = .indirect :=
  ⟨(c2_exact_classification (mkCli true true "foo".data) "FOO".data).1 rfl (by decide),
   ((c2_exact_classification cliChan "nixos.foo".data).2.1 rfl).mpr (by decide),
   (c2_exact_classification cliChan "foo".data).2.2 rfl (by decide)⟩

/-! ## Refresh atomicity (claim C3) -/

/-- C3: every failing refresh — subprocess launch failure, non-UTF-8
stdout, stdout below the fixed `10_000` threshold, undecodable JSON in
experimental mode — leaves the pre-existing cache unchanged, and a
successful refresh replaces the cache with exactly the computed content
in one atomic step (temp file + rename, modelled by
`refreshCacheAfter`); no other cache state is reachable. -/
theorem c3_refresh_atomic (experimental : Bool) (launch : Option CmdResult)
    (prior : Option Str) :
    ((refresh experimental launch).isOk = false →
      refreshCacheAfter experimental launch prior = prior)
    ∧ (∀ c, refresh experimental launch = .ok c →
        refreshCacheAfter experimental launch prior = some c)
    ∧ (launch = none → (refresh experimental launch).isOk = false)
    ∧ (∀ out, launch = some out → out.stdout? = none →
        (refresh experimental launch).isOk = false)
    ∧ (∀ out s, launch = some out → out.stdout? = some s → s.length < 10000 →
        (refresh experimental launch).isOk = false)
    ∧ (∀ out, launch = some out → experimental = true → out.json? = none →
        (refresh experimental launch).isOk = false) := by
  refine ⟨?_, ?_, ?_, ?_, ?_, ?_⟩
  · intro h
    cases hr : refresh experimental launch with
    | ok c => rw [hr] at h; simp [Except.isOk, Except.toBool] at h
    | error e => simp [refreshCacheAfter, hr]
  · intro c hc
    simp [refreshCacheAfter, hc]
  · intro h
    subst h
    rfl
  · intro out hl hs
    subst hl
    simp [refresh, hs, Except.isOk, Except.toBool]
  · intro out s hl hs hlen
    subst hl
    cases he : out.stderr? <;>
      simp [refresh, hs, he, hlen, Except.isOk, Except.toBool]
  · intro out hl hexp hj
    subst hl
    subst hexp
    cases hs : out.stdout? with
    | none => simp [refresh, hs, Except.isOk, Except.toBool]
    | some s =>
      cases he : out.stderr? with
      | none => simp [refresh, hs, he, Except.isOk, Except.toBool]
      | some e =>
        by_cases hlen : s.length < 10000 <;>
          simp [refresh, hs, he, hlen, hj, parse_json_to_lines,
            Except.isOk, Except.toBool]

/-- Witness for C3: a launch failure leaves a concrete prior cache in
place. -/
theorem c3_refresh_atomic_witness :
    (refresh false none).isOk = false
    ∧ refreshCacheAfter false none (some "x".data) = some "x".data :=
  ⟨(c3_refresh_atomic false none (some "x".data)).2.2.1 rfl,
   (c3_refresh_atomic false none (some "x".data)).1
     ((c3_refresh_atomic false none (some "x".data)).2.2.1 rfl)⟩

/-! ## The search term is a regex (claim C10) -/

/-- C10: the search term is compiled as a regular expression, not
matched literally: the invalid regex `(` makes `get_matches` fail and
the whole run exit with failure for every cache content, while the term
`f.o` selects the line `foo 1 d` by regex semantics even though `f.o`
is not a literal substring of it. -/
theorem c10_term_is_regex :
    parseRE "(".data = none
    ∧ (∀ content : Str, (get_matches cliLparen content).isOk = false)
    ∧ (∀ (content : Str) (colored : Bool),
        nps_main cliLparen false true (some content) none colored
          = (.failure, some content))
    ∧ get_matches cliDotTerm "foo 1 d\nbar 1 d\n".data = .ok "foo 1 d\n".data
    ∧ litContains "f.o".data "foo 1 d".data = false := by
  have hp : parseRE cliLparen.search_term = none := by decide
  refine ⟨by decide, ?_, ?_, by rfl, by decide⟩
  · intro content
    simp [get_matches, hp, Except.isOk, Except.toBool]
  · intro content colored
    simp [nps_main, searchRun, get_matches, hp]

/-- Witness for C10, applying the theorem at a concrete cache. -/
theorem c10_term_is_regex_witness :
    nps_main cliLparen false true (some "foo 1 d\n".data) none false
      = (.failure, some "foo 1 d\n".data) :=
  (c10_term_is_regex).2.2.1 "foo 1 d\n".data false

/-! ## Exit semantics (claim C1) -/

theorem emitLines_eq_nil_iff (b : List Str) : emitLines b = [] ↔ b = [] := by
  cases b with
  | nil => simp [emitLines]
  | cons l rest => simp [emitLines, termLine]

/-- C1 counterexample: a search that runs to completion with zero
matching records exits with failure (line 885 of `main`), not success —
the search itself completed (`get_matches` returned an empty result). -/
theorem c1_counterexample :
    get_matches cliNoMatch "abc 1 d\n".data = .ok []
    ∧ nps_main cliNoMatch false true (some "abc 1 d\n".data) none false
      = (.failure, some "abc 1 d\n".data) := by
  constructor <;> rfl

/-- C1 (amended): the process exits with success exactly when either a
refresh-only run succeeds, or a search over readable cache content with
a term that compiles as a regex finds at least one matching line; a
completed search with zero matches exits with failure, as do an
unreadable cache, an invalid regex term, and a failed refresh. -/
theorem c1_exit_semantics (cli : Cli) (refreshFlag cacheExists colored : Bool)
    (prior : Option Str) (launch : Option CmdResult) :
    ((nps_main cli refreshFlag cacheExists prior launch colored).1 = .success ↔
      (if refreshFlag ∨ cacheExists = false then
        ∃ c, refresh cli.experimental launch = .ok c ∧
          (refreshFlag = true ∨ ∃ o, searchRun cli colored c = .ok (some o))
      else ∃ content o, prior = some content ∧ searchRun cli colored content = .ok (some o)))
    ∧ (∀ content, (∃ o, searchRun cli colored content = .ok (some o)) ↔
        ∃ r, parseRE cli.search_term = some r ∧
          (linesOf content).filter (reSearch cli.ignore_case r) ≠ []) := by
  constructor
  · by_cases hb : refreshFlag ∨ cacheExists = false
    · rw [if_pos hb]
      cases hr : refresh cli.experimental launch with
      | error e => simp [nps_main, hb, hr]
      | ok c =>
        cases hf : refreshFlag with
        | true => simp [nps_main, hb, hr, hf]
        | false =>
          have hce : cacheExists = false := by
            rcases hb with h | h
            · rw [hf] at h
              exact absurd h (by simp)
            · exact h
          cases hs : searchRun cli colored c with
          | error e => simp [nps_main, hb, hr, hf, hce, hs]
          | ok o =>
            cases o with
            | none => simp [nps_main, hb, hr, hf, hce, hs]
            | some out => simp [nps_main, hb, hr, hf, hce, hs]
    · rw [if_neg hb]
      cases hp : prior with
      | none => simp [nps_main, hb, hp]
      | some content =>
        cases hs : searchRun cli colored content with
        | error e => simp [nps_main, hb, hp, hs]
        | ok o =>
          cases o with
          | none => simp [nps_main, hb, hp, hs]
          | some out => simp [nps_main, hb, hp, hs]
  · intro content
    cases hp : parseRE cli.search_term with
    | none => simp [searchRun, get_matches, hp]
    | some r =>
      cases hf : (linesOf content).filter (reSearch cli.ignore_case r) with
      | nil =>
        have hsr : searchRun cli colored content = .ok none := by
          simp [searchRun, get_matches, hp, hf, emitLines]
        rw [hsr]
        constructor
        · rintro ⟨o, ho⟩
          simp at ho
        · rintro ⟨r2, hr2, hcon⟩
          rw [Option.some_inj] at hr2
          subst hr2
          exact absurd hf hcon
      | cons l rest =>
        have hne : emitLines (l :: rest) ≠ [] := by
          rw [Ne, emitLines_eq_nil_iff]
          simp
        have hg : get_matches cli content = .ok (emitLines (l :: rest)) := by
          simp [get_matches, hp, hf]
        have hsr : ∃ o, searchRun cli colored content = .ok (some o) := by
          simp only [searchRun, hg]
          rw [if_neg hne]
          simp only [color_matches, hp]
          exact ⟨_, rfl⟩
        constructor
        · intro _
          refine ⟨r, rfl, ?_⟩
          rw [hf]
          simp
        · intro _
          exact hsr

/-- Witness for C1 (amended): a concrete search with one matching line
exits with success. -/
theorem c1_exit_semantics_witness :
    (nps_main (mkCli true true "abc".data) false true
      (some "abc 1 d\n".data) none false).1 = .success := by
  have h := (c1_exit_semantics (mkCli true true "abc".data) false true false
    (some "abc 1 d\n".data) none).1
  apply h.mpr
  rw [if_neg (by simp)]
  exact ⟨"abc 1 d\n".data, _, rfl, rfl⟩

/-! ## Global column widths (claim C6) -/

theorem sortLoop_eq (cli : Cli) (np vp : Nat) : ∀ ls : List Str,
    sortLoop cli np vp ls =
      ((ls.filter (fun l => decide (kindOf cli l = .exact))).map (renderLine cli np vp),
       (ls.filter (fun l => decide (kindOf cli l = .direct))).map (renderLine cli np vp),
       (ls.filter (fun l => decide (kindOf cli l = .indirect))).map (renderLine cli np vp)) := by
  intro ls
  induction ls with
  | nil => rfl
  | cons line rest ih =>
    cases hk : classify cli (parseRecord line).1 <;>
      simp [sortLoop, ih, kindOf, hk]

theorem sortLoop_lengths (cli : Cli) (np vp : Nat) : ∀ ls : List Str,
    (sortLoop cli np vp ls).1.length + (sortLoop cli np vp ls).2.1.length
      + (sortLoop cli np vp ls).2.2.length = ls.length := by
  intro ls
  rw [sortLoop_eq]
  simp only [List.length_map]
  induction ls with
  | nil => rfl
  | cons line rest ih =>
    cases hk : kindOf cli line <;>
      simp [List.filter_cons, hk] <;> omega

/-- C6: every rendered line of every bucket is rendered with the global
column widths computed over all matched lines (the union of the three
buckets — the buckets partition the matched lines), not per bucket. -/
theorem c6_global_padding (cli : Cli) (raw : Str) :
    (∀ r, (r ∈ (sort_and_pad_matches cli raw).1
        ∨ r ∈ (sort_and_pad_matches cli raw).2.1
        ∨ r ∈ (sort_and_pad_matches cli raw).2.2) →
      ∃ line ∈ linesOf raw,
        r = renderLine cli (namePaddingOf (linesOf raw))
              (versionPaddingOf (linesOf raw)) line)
    ∧ (sort_and_pad_matches cli raw).1.length
        + (sort_and_pad_matches cli raw).2.1.length
        + (sort_and_pad_matches cli raw).2.2.length = (linesOf raw).length := by
  constructor
  · intro r hr
    have he := sortLoop_eq cli (namePaddingOf (linesOf raw)) (versionPaddingOf (linesOf raw))
      (linesOf raw)
    rcases hr with h | h | h <;>
    · rw [sort_and_pad_matches, he] at h
      simp only [List.mem_map, List.mem_filter] at h
      obtain ⟨line, ⟨hmem, _⟩, hrend⟩ := h
      exact ⟨line, hmem, hrend.symm⟩
  · exact sortLoop_lengths cli _ _ (linesOf raw)

/-- Witness for C6: names of lengths 5, 10 and 3 land in the three
different buckets and all render with name column width 10. -/
theorem c6_global_padding_witness :
    (∃ line ∈ linesOf "abcde 1 x\nabcdeXYZWV 2 y\nzzz 3 abcde\n".data,
      "zzz         3  abcde".data
        = renderLine cliAbcde
            (namePaddingOf (linesOf "abcde 1 x\nabcdeXYZWV 2 y\nzzz 3 abcde\n".data))
            (versionPaddingOf (linesOf "abcde 1 x\nabcdeXYZWV 2 y\nzzz 3 abcde\n".data))
            line)
    ∧ namePaddingOf (linesOf "abcde 1 x\nabcdeXYZWV 2 y\nzzz 3 abcde\n".data) = 10
    ∧ sort_and_pad_matches cliAbcde "abcde 1 x\nabcdeXYZWV 2 y\nzzz 3 abcde\n".data
        = (["abcde       1  x".data], ["abcdeXYZWV  2  y".data], ["zzz         3  abcde".data]) :=
  ⟨(c6_global_padding cliAbcde "abcde 1 x\nabcdeXYZWV 2 y\nzzz 3 abcde\n".data).1
      "zzz         3  abcde".data (Or.inr (Or.inr (by decide))),
   by decide, by decide⟩

/-! ## Plain-text normalization (claim C7) -/

theorem takeWhile_dropWhile_append (p : α → Bool) (xs ys : List α)
    (hx : ∀ c ∈ xs, p c = true) (hy : ∀ c, ys.head? = some c → p c = false) :
    (xs ++ ys).takeWhile p = xs ∧ (xs ++ ys).dropWhile p = ys := by
  induction xs with
  | nil =>
    cases ys with
    | nil => simp
    | cons a t =>
      have := hy a rfl
      simp [List.takeWhile_cons, List.dropWhile_cons, this]
  | cons x xs ih =>
    have hpx := hx x (List.mem_cons_self x xs)
    have ih2 := ih (fun c hc => hx c (List.mem_cons_of_mem x hc))
    simp [List.takeWhile_cons, List.dropWhile_cons, hpx, ih2.1, ih2.2]

theorem head?_dropWhile_false (p : α → Bool) : ∀ (l : List α) (c : α),
    (l.dropWhile p).head? = some c → p c = false := by
  intro l
  induction l with
  | nil => intro c h; simp at h
  | cons x t ih =>
    intro c h
    by_cases hx : p x = true
    · rw [List.dropWhile_cons, if_pos hx] at h
      exact ih c h
    · rw [List.dropWhile_cons, if_neg hx] at h
      simp only [List.head?_cons, Option.some_inj] at h
      subst h
      simpa using hx

theorem intercalate_cons_cons (sep : Str) (x y : Str) (zs : List Str) :
    sep.intercalate (x :: y :: zs) = x ++ sep ++ sep.intercalate (y :: zs) := by
  simp [List.intercalate, List.intersperse_cons₂, List.append_assoc]

theorem takeWhile_append_stop (p : Char → Bool) (x T2 : Str)
    (h : x.dropWhile p ≠ [] ∨ ∀ c, T2.head? = some c → p c = false) :
    (x ++ T2).takeWhile p = x.takeWhile p
    ∧ (x ++ T2).dropWhile p = x.dropWhile p ++ T2 := by
  have hy : ∀ c, (x.dropWhile p ++ T2).head? = some c → p c = false := by
    intro c hc
    cases hd : x.dropWhile p with
    | nil =>
      rw [hd] at hc
      simp only [List.nil_append] at hc
      cases h with
      | inl h1 => exact absurd hd h1
      | inr h2 => exact h2 c hc
    | cons a t =>
      rw [hd] at hc
      simp only [List.cons_append, List.head?_cons, Option.some_inj] at hc
      subst hc
      exact head?_dropWhile_false p x a (by rw [hd]; rfl)
  have hsplit : x ++ T2 = x.takeWhile p ++ (x.dropWhile p ++ T2) := by
    rw [← List.append_assoc, List.takeWhile_append_dropWhile]
  rw [hsplit]
  exact takeWhile_dropWhile_append p (x.takeWhile p) (x.dropWhile p ++ T2)
    (fun c hc => List.mem_takeWhile_imp hc) hy

theorem no_nl_take_drop (x : Str) (hx : ∀ c ∈ x, c ≠ nl) :
    x.takeWhile (fun c => decide (c ≠ nl)) = x
    ∧ x.dropWhile (fun c => decide (c ≠ nl)) = [] := by
  have hdrop : x.dropWhile (fun c => decide (c ≠ nl)) = [] := by
    rw [List.dropWhile_eq_nil_iff]
    intro c hc
    simpa using hx c hc
  refine ⟨?_, hdrop⟩
  have h0 := List.takeWhile_append_dropWhile (fun c => decide (c ≠ nl)) x
  rw [hdrop, List.append_nil] at h0
  exact h0

theorem match_chain (l T : Str) (hnl : nl ∉ l) (hm : lineMatchAt l) :
    lineMatchAt (l ++ nl :: T)
    ∧ subOut (l ++ nl :: T) = normalizeLine l
    ∧ subTail (l ++ nl :: T) = nl :: T := by
  simp only [lineMatchAt] at hm
  obtain ⟨hp1, hs1, hp2, hs2⟩ := hm
  have hr1 : l.dropWhile (fun c => decide (c ≠ ' ')) ≠ [] := by
    intro h0
    rw [h0] at hs1
    simp at hs1
  have hr3 : ((l.dropWhile (fun c => decide (c ≠ ' '))).dropWhile
      (fun c => decide (c = ' '))).dropWhile (fun c => decide (c ≠ ' ')) ≠ [] := by
    intro h0
    rw [h0] at hs2
    simp at hs2
  have hstop2 : ∀ c, (nl :: T).head? = some c → (fun c => decide (c = ' ')) c = false := by
    intro c hc
    simp only [List.head?_cons, Option.some_inj] at hc
    subst hc
    decide
  have hstop5 : ∀ c, (nl :: T).head? = some c → (fun c => decide (c ≠ nl)) c = false := by
    intro c hc
    simp only [List.head?_cons, Option.some_inj] at hc
    subst hc
    decide
  have E1 := takeWhile_append_stop (fun c => decide (c ≠ ' ')) l (nl :: T) (Or.inl hr1)
  have E2 := takeWhile_append_stop (fun c => decide (c = ' '))
    (l.dropWhile (fun c => decide (c ≠ ' '))) (nl :: T) (Or.inr hstop2)
  have E3 := takeWhile_append_stop (fun c => decide (c ≠ ' '))
    ((l.dropWhile (fun c => decide (c ≠ ' '))).dropWhile (fun c => decide (c = ' ')))
    (nl :: T) (Or.inl hr3)
  have E4 := takeWhile_append_stop (fun c => decide (c = ' '))
    (((l.dropWhile (fun c => decide (c ≠ ' '))).dropWhile
      (fun c => decide (c = ' '))).dropWhile (fun c => decide (c ≠ ' ')))
    (nl :: T) (Or.inr hstop2)
  have E5 := takeWhile_append_stop (fun c => decide (c ≠ nl))
    ((((l.dropWhile (fun c => decide (c ≠ ' '))).dropWhile
      (fun c => decide (c = ' '))).dropWhile
      (fun c => decide (c ≠ ' '))).dropWhile (fun c => decide (c = ' ')))
    (nl :: T) (Or.inr hstop5)
  have hr4 := no_nl_take_drop
    ((((l.dropWhile (fun c => decide (c ≠ ' '))).dropWhile
      (fun c => decide (c = ' '))).dropWhile
      (fun c => decide (c ≠ ' '))).dropWhile (fun c => decide (c = ' ')))
    (by
      intro c hc h0
      subst h0
      exact hnl (((List.dropWhile_sublist _).trans ((List.dropWhile_sublist _).trans
        ((List.dropWhile_sublist _).trans (List.dropWhile_sublist _)))).subset hc))
  refine ⟨?_, ?_, ?_⟩
  · simp only [lineMatchAt]
    rw [E1.1, E1.2, E2.1, E2.2, E3.1, E3.2, E4.1]
    exact ⟨hp1, hs1, hp2, hs2⟩
  · simp only [subOut, normalizeLine]
    rw [if_pos ⟨hp1, hs1, hp2, hs2⟩, E1.1, E1.2, E2.2, E3.1, E3.2, E4.2, E5.1, hr4.1]
  · simp only [subTail]
    rw [E1.2, E2.2, E3.2, E4.2, E5.2, hr4.2]
    simp

theorem match_chain_last (l : Str) (hnl : nl ∉ l) (hm : lineMatchAt l) :
    subOut l = normalizeLine l ∧ subTail l = [] := by
  simp only [lineMatchAt] at hm
  obtain ⟨hp1, hs1, hp2, hs2⟩ := hm
  have hr4 := no_nl_take_drop
    ((((l.dropWhile (fun c => decide (c ≠ ' '))).dropWhile
      (fun c => decide (c = ' '))).dropWhile
      (fun c => decide (c ≠ ' '))).dropWhile (fun c => decide (c = ' ')))
    (by
      intro c hc h0
      subst h0
      exact hnl (((List.dropWhile_sublist _).trans ((List.dropWhile_sublist _).trans
        ((List.dropWhile_sublist _).trans (List.dropWhile_sublist _)))).subset hc))
  constructor
  · simp only [subOut, normalizeLine]
    rw [if_pos ⟨hp1, hs1, hp2, hs2⟩, hr4.1]
  · simp only [subTail]
    exact hr4.2

theorem replaceAll_per_line : ∀ ls : List Str,
    (∀ l ∈ ls, nl ∉ l ∧ lineMatchAt l) →
    replaceAll ([nl].intercalate ls) = [nl].intercalate (ls.map normalizeLine)
  | [], _ => by
    rw [show ([nl].intercalate ([] : List Str)) = [] from rfl]
    rw [replaceAll.eq_def, if_neg (by decide)]
    rfl
  | [l], h => by
    obtain ⟨hnl, hm⟩ := h l (List.mem_singleton_self l)
    obtain ⟨hOut, hTail⟩ := match_chain_last l hnl hm
    rw [show [nl].intercalate [l] = l from by simp [List.intercalate]]
    rw [show [nl].intercalate ([l].map normalizeLine) = normalizeLine l from by
      simp [List.intercalate]]
    rw [replaceAll.eq_def, if_pos hm]
    split
    · exact hOut
    · rename_i c t heq2
      rw [hTail] at heq2
      simp at heq2
  | l :: l2 :: rest, h => by
    obtain ⟨hnl, hm⟩ := h l (List.mem_cons_self l (l2 :: rest))
    obtain ⟨hLM, hOut, hTail⟩ :=
      match_chain l ([nl].intercalate (l2 :: rest)) hnl hm
    have hglue : [nl].intercalate (l :: l2 :: rest)
        = l ++ nl :: ([nl].intercalate (l2 :: rest)) := by
      rw [intercalate_cons_cons]
      simp
    rw [hglue, replaceAll.eq_def, if_pos hLM]
    split
    · rename_i heq2
      rw [hTail] at heq2
      simp at heq2
    · rename_i c t heq2
      rw [hTail] at heq2
      injection heq2 with hc ht
      subst hc
      subst ht
      rw [hOut, replaceAll_per_line (l2 :: rest)
        (fun x hx => h x (List.mem_cons_of_mem l hx))]
      simp only [List.map_cons]
      rw [intercalate_cons_cons]

/-- C7 counterexample: the normalization does not collapse arbitrary
whitespace runs.  On the line `a\t\tb c` the claimed `\S`/`\s`
substitution produces `a b c`, while the code's `[^ ]`/`' '`
(space-only) substitution leaves the line unchanged. -/
theorem c7_counterexample :
    normalizeCache "a\t\tb c".data = "a\t\tb c".data
    ∧ specNormalizeLine "a\t\tb c".data = "a b c".data
    ∧ normalizeCache "a\t\tb c".data ≠ specNormalizeLine "a\t\tb c".data := by
  have h : normalizeCache "a\t\tb c".data = "a\t\tb c".data := by
    show replaceAll "a\t\tb c".data = "a\t\tb c".data
    rw [replaceAll.eq_def, if_neg (by decide)]
    decide
  refine ⟨h, by decide, ?_⟩
  rw [h]
  decide

/-- C7 (amended): in plain-text refresh mode the captured stdout is
normalized by one multi-line `replace_all` of
`^([^ ]+) +([^ ]+) +(.*)$` with `$1 $2 $3`, whose character classes
are space-only (U+0020 — tabs and other whitespace count as
non-space).  When every line of the input has the shape non-space run,
space run, non-space run, space run, remainder, the substitution acts
line by line, collapsing each line's first two space runs to single
spaces and keeping the remainder verbatim; each single line either has
that shape and is so rewritten or is left unchanged.  But because
`[^ ]` also matches the newline, a line without that shape can be
absorbed into a match spanning onto later lines, so the whole-stdout
substitution is not per-line in general: on `a b\nc  d  e` it yields
`a b\nc d  e`, not the per-line `a b\nc d e`.  A successful plain-mode
refresh applies exactly this `replace_all` to its stdout. -/
theorem c7_normalization (ls : List Str)
    (hls : ∀ l ∈ ls, nl ∉ l ∧ lineMatchAt l) :
    normalizeCache ([nl].intercalate ls) = [nl].intercalate (ls.map normalizeLine)
    ∧ (∀ p1 s1 p2 s2 rest : Str,
        p1 ≠ [] → (∀ c ∈ p1, c ≠ ' ') →
        s1 ≠ [] → (∀ c ∈ s1, c = ' ') →
        p2 ≠ [] → (∀ c ∈ p2, c ≠ ' ') →
        s2 ≠ [] → (∀ c ∈ s2, c = ' ') →
        (∀ c, rest.head? = some c → c ≠ ' ') →
        normalizeLine (p1 ++ s1 ++ p2 ++ s2 ++ rest)
          = p1 ++ [' '] ++ p2 ++ [' '] ++ rest)
    ∧ (∀ l : Str, normalizeLine l = l ∨
        ∃ q1 t1 q2 t2 r2, l = q1 ++ t1 ++ q2 ++ t2 ++ r2
          ∧ q1 ≠ [] ∧ t1 ≠ [] ∧ q2 ≠ [] ∧ t2 ≠ []
          ∧ (∀ c ∈ q1, c ≠ ' ') ∧ (∀ c ∈ t1, c = ' ')
          ∧ (∀ c ∈ q2, c ≠ ' ') ∧ (∀ c ∈ t2, c = ' ')
          ∧ normalizeLine l = q1 ++ [' '] ++ q2 ++ [' '] ++ r2)
    ∧ normalizeCache "a b\nc  d  e".data = "a b\nc d  e".data
    ∧ normalizeCache "a b\nc  d  e".data
        ≠ [nl].intercalate ((("a b\nc  d  e".data).splitOn nl).map normalizeLine)
    ∧ (∀ (out : CmdResult) (s e : Str), out.stdout? = some s → out.stderr? = some e →
        ¬ s.length < 10000 → refresh false (some out) = .ok (normalizeCache s)) := by
  have hconc : normalizeCache "a b\nc  d  e".data = "a b\nc d  e".data := by
    show replaceAll "a b\nc  d  e".data = "a b\nc d  e".data
    rw [replaceAll.eq_def, if_pos (by decide)]
    decide
  refine ⟨replaceAll_per_line ls hls, ?_, ?_, hconc, ?_, ?_⟩
  · intro p1 s1 p2 s2 rest hp1 hp1s hs1 hs1s hp2 hp2s hs2 hs2s hrest
    have h1 := takeWhile_dropWhile_append (fun c => decide (c ≠ ' '))
      p1 (s1 ++ p2 ++ s2 ++ rest)
      (by intro c hc; simpa using hp1s c hc)
      (by
        intro c hc
        cases s1 with
        | nil => exact absurd rfl hs1
        | cons a t =>
          simp only [List.cons_append, List.head?_cons, Option.some_inj] at hc
          subst hc
          simpa using hs1s a (List.mem_cons_self a t))
    have h2 := takeWhile_dropWhile_append (fun c => decide (c = ' '))
      s1 (p2 ++ s2 ++ rest)
      (by intro c hc; simpa using hs1s c hc)
      (by
        intro c hc
        cases p2 with
        | nil => exact absurd rfl hp2
        | cons a t =>
          simp only [List.cons_append, List.head?_cons, Option.some_inj] at hc
          subst hc
          simpa using hp2s a (List.mem_cons_self a t))
    have h3 := takeWhile_dropWhile_append (fun c => decide (c ≠ ' '))
      p2 (s2 ++ rest)
      (by intro c hc; simpa using hp2s c hc)
      (by
        intro c hc
        cases s2 with
        | nil => exact absurd rfl hs2
        | cons a t =>
          simp only [List.cons_append, List.head?_cons, Option.some_inj] at hc
          subst hc
          simpa using hs2s a (List.mem_cons_self a t))
    have h4 := takeWhile_dropWhile_append (fun c => decide (c = ' '))
      s2 rest
      (by intro c hc; simpa using hs2s c hc)
      (by
        intro c hc
        simpa using hrest c hc)
    simp only [normalizeLine]
    rw [show p1 ++ s1 ++ p2 ++ s2 ++ rest = p1 ++ (s1 ++ p2 ++ s2 ++ rest) by
      simp [List.append_assoc]]
    rw [h1.1, h1.2]
    rw [show s1 ++ p2 ++ s2 ++ rest = s1 ++ (p2 ++ s2 ++ rest) by
      simp [List.append_assoc]]
    rw [h2.1, h2.2]
    rw [show p2 ++ s2 ++ rest = p2 ++ (s2 ++ rest) by simp [List.append_assoc]]
    rw [h3.1, h3.2, h4.1, h4.2]
    rw [if_pos ⟨hp1, hs1, hp2, hs2⟩]
  · intro l
    by_cases hc : l.takeWhile (fun c => decide (c ≠ ' ')) ≠ []
        ∧ (l.dropWhile (fun c => decide (c ≠ ' '))).takeWhile (fun c => decide (c = ' ')) ≠ []
        ∧ ((l.dropWhile (fun c => decide (c ≠ ' '))).dropWhile
            (fun c => decide (c = ' '))).takeWhile (fun c => decide (c ≠ ' ')) ≠ []
        ∧ (((l.dropWhile (fun c => decide (c ≠ ' '))).dropWhile
            (fun c => decide (c = ' '))).dropWhile
            (fun c => decide (c ≠ ' '))).takeWhile (fun c => decide (c = ' ')) ≠ []
    · right
      refine ⟨l.takeWhile (fun c => decide (c ≠ ' ')),
        (l.dropWhile (fun c => decide (c ≠ ' '))).takeWhile (fun c => decide (c = ' ')),
        ((l.dropWhile (fun c => decide (c ≠ ' '))).dropWhile
          (fun c => decide (c = ' '))).takeWhile (fun c => decide (c ≠ ' ')),
        (((l.dropWhile (fun c => decide (c ≠ ' '))).dropWhile
          (fun c => decide (c = ' '))).dropWhile
          (fun c => decide (c ≠ ' '))).takeWhile (fun c => decide (c = ' ')),
        (((l.dropWhile (fun c => decide (c ≠ ' '))).dropWhile
          (fun c => decide (c = ' '))).dropWhile
          (fun c => decide (c ≠ ' '))).dropWhile (fun c => decide (c = ' ')),
        ?_, hc.1, hc.2.1, hc.2.2.1, hc.2.2.2, ?_, ?_, ?_, ?_, ?_⟩
      · rw [List.append_assoc, List.append_assoc, List.append_assoc,
          List.takeWhile_append_dropWhile, List.takeWhile_append_dropWhile,
          List.takeWhile_append_dropWhile, List.takeWhile_append_dropWhile]
      · intro c hc2
        simpa using List.mem_takeWhile_imp hc2
      · intro c hc2
        simpa using List.mem_takeWhile_imp hc2
      · intro c hc2
        simpa using List.mem_takeWhile_imp hc2
      · intro c hc2
        simpa using List.mem_takeWhile_imp hc2
      · simp only [normalizeLine]
        rw [if_pos hc]
    · left
      simp only [normalizeLine]
      rw [if_neg hc]
  · rw [hconc]
    decide
  · intro out s e hs he hlen
    simp [refresh, hs, he, hlen]

/-- Witness for C7 (amended) on the two-line stdout
`a  b   c d` / `xx y z`: every line has the matched shape, so the
multi-line substitution acts per line, collapsing the first two space
runs of each line; the remainder `c d` is kept verbatim. -/
theorem c7_normalization_witness :
    normalizeCache ([nl].intercalate ["a  b   c d".data, "xx y z".data])
      = [nl].intercalate (["a  b   c d".data, "xx y z".data].map normalizeLine)
    ∧ normalizeLine "a  b   c d".data = "a b c d".data := by
  refine ⟨(c7_normalization ["a  b   c d".data, "xx y z".data] ?_).1, by decide⟩
  intro l hl
  simp only [List.mem_cons, List.not_mem_nil, or_false] at hl
  rcases hl with h | h
  · subst h
    exact ⟨by decide, by decide⟩
  · subst h
    exact ⟨by decide, by decide⟩

/-! ## Lines, emission and trimming: supporting lemmas -/

theorem emitLines_append (x y : List Str) :
    emitLines (x ++ y) = emitLines x ++ emitLines y := by
  simp [emitLines]

theorem emitLines_eq_intercalate : ∀ ls : List Str, ls ≠ [] →
    emitLines ls = [nl].intercalate ls ++ [nl]
  | [l], _ => by simp [emitLines, termLine, List.intercalate]
  | l :: l2 :: rest, _ => by
    have ih := emitLines_eq_intercalate (l2 :: rest) (by simp)
    rw [show l :: l2 :: rest = [l] ++ (l2 :: rest) from rfl, emitLines_append,
      List.singleton_append, intercalate_cons_cons, ih]
    simp [emitLines, termLine, List.append_assoc]

theorem getLast?_intercalate_of_wf : ∀ ls : List Str, ls ≠ [] →
    (∀ l ∈ ls, l ≠ [] ∧ nl ∉ l) →
    ∃ c, ([nl].intercalate ls).getLast? = some c ∧ c ≠ nl
  | [l], _, hwf => by
    have hl := hwf l (List.mem_cons_self l [])
    cases hc : l.getLast? with
    | none => exact absurd (List.getLast?_eq_none_iff.mp hc) hl.1
    | some c =>
      refine ⟨c, ?_, ?_⟩
      · simpa [List.intercalate] using hc
      · intro he
        subst he
        exact hl.2 (List.mem_of_mem_getLast? hc)
  | l :: l2 :: rest, _, hwf => by
    obtain ⟨c, hc, hcne⟩ := getLast?_intercalate_of_wf (l2 :: rest) (by simp)
      (fun x hx => hwf x (List.mem_cons_of_mem l hx))
    refine ⟨c, ?_, hcne⟩
    rw [intercalate_cons_cons, List.getLast?_append, List.getLast?_append, hc]
    rfl

theorem linesOf_intercalate (ls : List Str) (hne : ls ≠ [])
    (hwf : ∀ l ∈ ls, l ≠ [] ∧ nl ∉ l) :
    linesOf ([nl].intercalate ls) = ls := by
  obtain ⟨c, hc, hcne⟩ := getLast?_intercalate_of_wf ls hne hwf
  have hnil : [nl].intercalate ls ≠ [] := by
    intro h0
    rw [h0] at hc
    cases hc
  rw [linesOf, if_neg (by rw [hc]; simpa using hcne), if_neg hnil]
  exact List.splitOn_intercalate ls nl (fun l hl => (hwf l hl).2) hne

theorem linesOf_emitLines (ls : List Str) (hwf : ∀ l ∈ ls, nl ∉ l) :
    linesOf (emitLines ls) = ls := by
  cases hls : ls with
  | nil => rfl
  | cons l rest =>
    rw [← hls, emitLines_eq_intercalate ls (by rw [hls]; simp)]
    rw [linesOf, if_pos (by rw [List.getLast?_concat]), List.dropLast_concat]
    exact List.splitOn_intercalate ls nl (fun l hl => hwf l hl) (by rw [hls]; simp)

theorem updLast_append_singleton (f : α → α) : ∀ (xs : List α) (a : α),
    updLast f (xs ++ [a]) = xs ++ [f a]
  | [], a => rfl
  | [x], a => rfl
  | x :: y :: rest, a =>
    calc updLast f ((x :: y :: rest) ++ [a])
        = x :: updLast f ((y :: rest) ++ [a]) := rfl
      _ = x :: ((y :: rest) ++ [f a]) := by
          rw [updLast_append_singleton f (y :: rest) a]
      _ = (x :: y :: rest) ++ [f a] := rfl

theorem updLast_append_right (f : α → α) : ∀ (x y : List α), y ≠ [] →
    updLast f (x ++ y) = x ++ updLast f y := by
  intro x y hy
  obtain ⟨z, a, hz⟩ : ∃ z a, y = z ++ [a] := ⟨y.dropLast, y.getLast hy,
    (List.dropLast_append_getLast hy).symm⟩
  subst hz
  rw [← List.append_assoc, updLast_append_singleton, updLast_append_singleton,
    List.append_assoc]

theorem trimLeft_cons_of_not_ws (c : Char) (s : Str) (hc : isWs c = false) :
    trimLeft (c :: s) = c :: s := by
  simp [trimLeft, List.dropWhile_cons, hc]

theorem dropWhile_ne_nil_of_exists (p : α → Bool) (l : List α)
    (h : ∃ c ∈ l, p c = false) : l.dropWhile p ≠ [] := by
  intro hcon
  obtain ⟨c, hc, hpc⟩ := h
  rw [List.dropWhile_eq_nil_iff] at hcon
  rw [hcon c hc] at hpc
  exact absurd hpc (by simp)

theorem trimRight_append (x y : Str) (h : ∃ c ∈ y, isWs c = false) :
    trimRight (x ++ y) = x ++ trimRight y := by
  have hd : y.reverse.dropWhile isWs ≠ [] := by
    apply dropWhile_ne_nil_of_exists
    obtain ⟨c, hc, hpc⟩ := h
    exact ⟨c, List.mem_reverse.mpr hc, hpc⟩
  rw [trimRight, trimRight, List.reverse_append, List.dropWhile_append,
    if_neg (by simpa [List.isEmpty_iff] using hd)]
  simp

theorem trimRight_concat_ws (x : Str) (c : Char) (hc : isWs c = true) :
    trimRight (x ++ [c]) = trimRight x := by
  rw [trimRight, trimRight, List.reverse_append]
  simp [List.dropWhile_cons, hc]

theorem trimRight_cons_of_not_ws (c : Char) (s : Str) (hc : isWs c = false) :
    trimRight (c :: s) = c :: trimRight s := by
  rw [show c :: s = [c] ++ s from rfl]
  by_cases h : ∃ x ∈ s, isWs x = false
  · rw [trimRight_append [c] s h]
    rfl
  · push_neg at h
    have hs : trimRight s = [] := by
      rw [trimRight, List.reverse_eq_nil_iff, List.dropWhile_eq_nil_iff]
      intro a ha
      have := h a (List.mem_reverse.mp ha)
      simpa using this
    rw [hs]
    rw [trimRight, List.reverse_append]
    rw [List.dropWhile_append]
    rw [if_pos]
    · simp [List.dropWhile_cons, hc]
    · simp only [List.isEmpty_iff, List.dropWhile_eq_nil_iff]
      intro a ha
      have := h a (List.mem_reverse.mp ha)
      simpa using this

theorem mem_of_mem_trimRight (s : Str) (a : Char) (h : a ∈ trimRight s) : a ∈ s := by
  rw [trimRight] at h
  rw [List.mem_reverse] at h
  exact List.mem_reverse.mp ((List.dropWhile_sublist isWs).mem h)

/-! ## The output pipeline in normal form (claims C4 and C8) -/

theorem searchEmitHl_plain (ic : Bool) (r : RE) (pre post : Str) (b : List Str)
    (hwf : ∀ l ∈ b, l ≠ [] ∧ nl ∉ l) :
    searchEmitHl false ic r pre post ([nl].intercalate b) = emitLines b := by
  cases hb : b with
  | nil => rfl
  | cons l rest =>
    rw [← hb, searchEmitHl, linesOf_intercalate b (by rw [hb]; simp) hwf]
    simp [emitLines]

theorem color_matches_plain (cli : Cli) (r : RE)
    (m : List Str × List Str × List Str)
    (hr : parseRE cli.search_term = some r)
    (hwf : ∀ l ∈ m.1 ++ m.2.1 ++ m.2.2, l ≠ [] ∧ nl ∉ l) :
    color_matches cli false m
      = .ok (emitLines (if cli.flip then m.1 else m.1.reverse),
             emitLines (if cli.flip then m.2.1 else m.2.1.reverse),
             emitLines (if cli.flip then m.2.2 else m.2.2.reverse)) := by
  have h1 : ∀ l ∈ (if cli.flip then m.1 else m.1.reverse), l ≠ [] ∧ nl ∉ l := by
    intro l hl
    apply hwf
    cases hf : cli.flip <;> rw [hf] at hl <;> simp_all
  have h2 : ∀ l ∈ (if cli.flip then m.2.1 else m.2.1.reverse), l ≠ [] ∧ nl ∉ l := by
    intro l hl
    apply hwf
    cases hf : cli.flip <;> rw [hf] at hl <;> simp_all
  have h3 : ∀ l ∈ (if cli.flip then m.2.2 else m.2.2.reverse), l ≠ [] ∧ nl ∉ l := by
    intro l hl
    apply hwf
    cases hf : cli.flip <;> rw [hf] at hl <;> simp_all
  simp only [color_matches, hr]
  rw [searchEmitHl_plain _ _ _ _ _ h1, searchEmitHl_plain _ _ _ _ _ h2,
    searchEmitHl_plain _ _ _ _ _ h3]

theorem filter_map_emitLines (bs : List (List Str)) :
    (bs.map emitLines).filter (fun content => !content.isEmpty)
      = (bs.filter (fun b => !b.isEmpty)).map emitLines := by
  induction bs with
  | nil => rfl
  | cons b rest ih =>
    by_cases hb : b = []
    · subst hb
      simpa [List.filter_cons, emitLines] using ih
    · have h1 : emitLines b ≠ [] := (Ne.symm (fun h => hb ((emitLines_eq_nil_iff b).mp h.symm)))
      simp [List.filter_cons, List.isEmpty_iff, hb, h1, ih]

theorem print_matches_normal (cli : Cli) (r : RE) (e d i : List Str)
    (hr : parseRE cli.search_term = some r)
    (hwf : ∀ l ∈ e ++ d ++ i, l ≠ [] ∧ nl ∉ l) :
    ∀ bufs, color_matches cli false (e, d, i) = .ok bufs →
      print_matches cli bufs = renderBlocks cli.separate (printedBlocks cli.flip e d i) := by
  intro bufs hb
  rw [color_matches_plain cli r (e, d, i) hr hwf] at hb
  injection hb with hb
  subst hb
  cases hf : cli.flip
  · simp only [print_matches, renderBlocks, printedBlocks, hf, Bool.false_eq_true,
      if_false]
    rw [show [emitLines e.reverse, emitLines d.reverse, emitLines i.reverse]
        = [e.reverse, d.reverse, i.reverse].map emitLines from rfl,
      filter_map_emitLines, ← List.map_reverse]
  · simp only [print_matches, renderBlocks, printedBlocks, hf, if_true]
    rw [show [emitLines e, emitLines d, emitLines i]
        = [e, d, i].map emitLines from rfl,
      filter_map_emitLines]

/-! ## Flip symmetry of the output assembly (claim C4) -/

theorem printedBlocks_false_eq (e d i : List Str) :
    printedBlocks false e d i
      = [i.reverse, d.reverse, e.reverse].filter (fun b => !b.isEmpty) := by
  rw [printedBlocks]
  simp only [Bool.false_eq_true, if_false]
  rw [← List.filter_reverse]
  rfl

theorem printedBlocks_true_eq (e d i : List Str) :
    printedBlocks true e d i = [e, d, i].filter (fun b => !b.isEmpty) := rfl

/-- C4: for identical bucket contents, the flipped assembly equals the
unflipped assembly with the top-level block order and every bucket's
internal line order both reversed; the unflipped run prints Indirect,
Direct, Exact with each bucket's lines reversed, the flipped run prints
Exact, Direct, Indirect in natural cache order, and both runs render
exactly those block sequences. -/
theorem c4_flip_symmetry (cli : Cli) (r : RE) (e d i : List Str)
    (hr : parseRE cli.search_term = some r)
    (hwf : ∀ l ∈ e ++ d ++ i, l ≠ [] ∧ nl ∉ l) :
    printedBlocks true e d i = ((printedBlocks false e d i).map List.reverse).reverse
    ∧ printedBlocks false e d i
        = [i.reverse, d.reverse, e.reverse].filter (fun b => !b.isEmpty)
    ∧ printedBlocks true e d i = [e, d, i].filter (fun b => !b.isEmpty)
    ∧ (∀ bufs, color_matches {cli with flip := true} false (e, d, i) = .ok bufs →
        print_matches {cli with flip := true} bufs
          = renderBlocks cli.separate (printedBlocks true e d i))
    ∧ (∀ bufs, color_matches {cli with flip := false} false (e, d, i) = .ok bufs →
        print_matches {cli with flip := false} bufs
          = renderBlocks cli.separate (printedBlocks false e d i)) := by
  refine ⟨?_, printedBlocks_false_eq e d i, printedBlocks_true_eq e d i, ?_, ?_⟩
  · rw [printedBlocks_false_eq, printedBlocks_true_eq]
    by_cases he : e = [] <;> by_cases hd : d = [] <;> by_cases hi : i = [] <;>
      simp [List.filter_cons, he, hd, hi, List.isEmpty_iff]
  · exact print_matches_normal {cli with flip := true} r e d i hr hwf
  · exact print_matches_normal {cli with flip := false} r e d i hr hwf

/-- Witness for C4, applying the symmetry at concrete buckets. -/
theorem c4_flip_symmetry_witness :
    printedBlocks true ["x".data] ["y".data, "z".data] []
      = ((printedBlocks false ["x".data] ["y".data, "z".data] []).map List.reverse).reverse :=
  (c4_flip_symmetry (mkCli true true "a".data) (RE.chr 'a')
    ["x".data] ["y".data, "z".data] [] (by decide) (by decide)).1

/-! ## Blank-line separator structure (claim C8) -/

theorem getLast?_append_right (l l' : List α) (h : l' ≠ []) :
    (l ++ l').getLast? = l'.getLast? := by
  rw [List.getLast?_append]
  cases hc : l'.getLast? with
  | none => exact absurd (List.getLast?_eq_none_iff.mp hc) h
  | some c => rfl

theorem flatten_intersperse_cons (sep : List Str) (B : List Str)
    (X : List (List Str)) (hX : X ≠ []) :
    (List.intersperse sep (B :: X)).flatten = B ++ sep ++ (List.intersperse sep X).flatten := by
  cases X with
  | nil => exact absurd rfl hX
  | cons x t =>
    rw [List.intersperse_cons₂, List.flatten_cons, List.flatten_cons, List.append_assoc]

theorem flatten_intersperse_ne_nil (sep : List Str) (B : List Str)
    (rest : List (List Str)) (hB : B ≠ []) :
    (List.intersperse sep (B :: rest)).flatten ≠ [] := by
  cases rest with
  | nil => simpa using hB
  | cons B2 rest2 =>
    rw [flatten_intersperse_cons sep B (B2 :: rest2) (by simp)]
    simp [hB]

theorem head?_flatten_intersperse (sep : List Str) (B : List Str)
    (rest : List (List Str)) (hB : B ≠ []) :
    ((List.intersperse sep (B :: rest)).flatten).head? = B.head? := by
  cases rest with
  | nil => simp
  | cons B2 rest2 =>
    rw [flatten_intersperse_cons sep B (B2 :: rest2) (by simp), List.append_assoc,
      List.head?_append]
    cases B with
    | nil => exact absurd rfl hB
    | cons c t => rfl

theorem getLast?_flatten_intersperse (sep : List Str) : ∀ (Bs : List (List Str)),
    (∀ b ∈ Bs, b ≠ []) → ∀ (hne : Bs ≠ []),
    ((List.intersperse sep Bs).flatten).getLast? = (Bs.getLast hne).getLast?
  | [], _, hne => absurd rfl hne
  | [B], _, _ => by simp
  | B :: B2 :: rest, hB, _ => by
    have hB2 : B2 ≠ [] := hB B2 (by simp)
    have hflat := flatten_intersperse_ne_nil sep B2 rest hB2
    rw [flatten_intersperse_cons sep B (B2 :: rest) (by simp), List.append_assoc,
      getLast?_append_right _ _ (by simp [hflat]),
      getLast?_append_right _ _ hflat,
      getLast?_flatten_intersperse sep (B2 :: rest)
        (fun b hb => hB b (List.mem_cons_of_mem B hb)) (by simp)]
    cases rest with
    | nil => simp
    | cons B3 rest2 => simp [List.getLast_cons_cons]

theorem updLast_ne_nil (f : α → α) (l : List α) (h : l ≠ []) : updLast f l ≠ [] := by
  cases l with
  | nil => exact absurd rfl h
  | cons a t => cases t <;> simp [updLast]

theorem updLast_flatten_intersperse (f : Str → Str) (sep : List Str) :
    ∀ (Bs : List (List Str)), (∀ b ∈ Bs, b ≠ []) →
    updLast f ((List.intersperse sep Bs).flatten)
      = (List.intersperse sep (updLast (updLast f) Bs)).flatten
  | [], _ => rfl
  | [B], _ => by simp [updLast]
  | B :: B2 :: rest, h => by
    have hB2 : B2 ≠ [] := h B2 (by simp)
    have hflat := flatten_intersperse_ne_nil sep B2 rest hB2
    rw [flatten_intersperse_cons sep B (B2 :: rest) (by simp), List.append_assoc,
      updLast_append_right f B _ (by simp [hflat]),
      updLast_append_right f sep _ hflat,
      updLast_flatten_intersperse f sep (B2 :: rest)
        (fun b hb => h b (List.mem_cons_of_mem B hb)),
      show updLast (updLast f) (B :: B2 :: rest)
        = B :: updLast (updLast f) (B2 :: rest) from rfl,
      flatten_intersperse_cons sep B _
        (updLast_ne_nil (updLast f) (B2 :: rest) (by simp)),
      List.append_assoc]

theorem intercalate_map_emitLines : ∀ (Bs : List (List Str)),
    [nl].intercalate (Bs.map emitLines)
      = emitLines ((List.intersperse [([] : Str)] Bs).flatten)
  | [] => rfl
  | [B] => by simp [List.intercalate]
  | B :: B2 :: rest => by
    have ih := intercalate_map_emitLines (B2 :: rest)
    rw [List.map_cons] at ih
    rw [List.map_cons, List.map_cons, intercalate_cons_cons, ih,
      flatten_intersperse_cons [([] : Str)] B (B2 :: rest) (by simp),
      emitLines_append, emitLines_append]
    simp [emitLines, termLine]

theorem trim_emitLines (X : List Str) (hne : X ≠ [])
    (hh : ∃ c t, X.head? = some (c :: t) ∧ isWs c = false)
    (hl : ∃ c t, X.getLast? = some (c :: t) ∧ isWs c = false) :
    trim (emitLines X) ++ [nl] = emitLines (updLast trimRight X) := by
  obtain ⟨c, t, hhead, hcws⟩ := hh
  obtain ⟨c2, t2, hlast, hc2ws⟩ := hl
  have hgl : X.getLast hne = c2 :: t2 := by
    have := List.getLast?_eq_getLast X hne
    rw [hlast] at this
    exact (Option.some_inj.mp this).symm
  have hX : X = X.dropLast ++ [c2 :: t2] := by
    conv_lhs => rw [← List.dropLast_append_getLast hne]
    rw [hgl]
  have hXh : X = (c :: t) :: X.tail := by
    cases hXc : X with
    | nil => subst hXc; cases hhead
    | cons y ys =>
      rw [hXc] at hhead
      simp only [List.head?_cons, Option.some_inj] at hhead
      subst hhead
      rfl
  have htrimleft : trimLeft (emitLines X) = emitLines X := by
    rw [hXh]
    rw [show emitLines ((c :: t) :: X.tail)
      = c :: (t ++ [nl] ++ emitLines X.tail) from by simp [emitLines, termLine]]
    exact trimLeft_cons_of_not_ws c _ hcws
  have htrimright : trimRight (emitLines X)
      = emitLines X.dropLast ++ (c2 :: trimRight t2) := by
    conv_lhs => rw [hX]
    rw [emitLines_append,
      show emitLines [c2 :: t2] = ((c2 :: t2) ++ [nl]) from by simp [emitLines, termLine],
      ← List.append_assoc,
      trimRight_concat_ws _ nl (by decide),
      trimRight_append _ (c2 :: t2) ⟨c2, by simp, hc2ws⟩,
      trimRight_cons_of_not_ws c2 t2 hc2ws]
  rw [trim, htrimleft, htrimright]
  conv_rhs => rw [hX, updLast_append_singleton, trimRight_cons_of_not_ws c2 t2 hc2ws]
  rw [emitLines_append,
    show emitLines [c2 :: trimRight t2] = ((c2 :: trimRight t2) ++ [nl]) from by
      simp [emitLines, termLine]]
  simp [List.append_assoc]

theorem mem_updLast (f : α → α) : ∀ (l : List α) (x : α), x ∈ updLast f l →
    x ∈ l ∨ ∃ y ∈ l, x = f y
  | [], x, h => by simp [updLast] at h
  | [a], x, h => by
    simp only [updLast, List.mem_singleton] at h
    exact Or.inr ⟨a, by simp, h⟩
  | a :: b :: rest, x, h => by
    simp only [updLast, List.mem_cons] at h
    rcases h with h | h
    · exact Or.inl (by simp [h])
    · rcases mem_updLast f (b :: rest) x h with h2 | ⟨y, hy, hxy⟩
      · exact Or.inl (List.mem_cons_of_mem a h2)
      · exact Or.inr ⟨y, List.mem_cons_of_mem a hy, hxy⟩

theorem mem_flatten_intersperse (sep : List Str) : ∀ (Bs : List (List Str)) (x : Str),
    x ∈ (List.intersperse sep Bs).flatten → (∃ b ∈ Bs, x ∈ b) ∨ x ∈ sep
  | [], x, h => by simp at h
  | [B], x, h => by
    simp only [List.intersperse_singleton, List.flatten_cons, List.flatten_nil,
      List.append_nil] at h
    exact Or.inl ⟨B, by simp, h⟩
  | B :: B2 :: rest, x, h => by
    rw [flatten_intersperse_cons sep B (B2 :: rest) (by simp)] at h
    simp only [List.mem_append] at h
    rcases h with (h | h) | h
    · exact Or.inl ⟨B, by simp, h⟩
    · exact Or.inr h
    · rcases mem_flatten_intersperse sep (B2 :: rest) x h with ⟨b, hb, hxb⟩ | h2
      · exact Or.inl ⟨b, List.mem_cons_of_mem B hb, hxb⟩
      · exact Or.inr h2

theorem mem_printedBlocks (flip : Bool) (e d i : List Str) (b : List Str)
    (hb : b ∈ printedBlocks flip e d i) :
    b ≠ [] ∧ ∀ l ∈ b, l ∈ e ∨ l ∈ d ∨ l ∈ i := by
  have hb2 : b ∈ [if flip then e else e.reverse, if flip then d else d.reverse,
      if flip then i else i.reverse].filter (fun x => !x.isEmpty) := by
    cases hf : flip <;> rw [printedBlocks] at hb <;> simp only [hf] at hb ⊢
    · simpa using List.mem_reverse.mp hb
    · simpa using hb
  rw [List.mem_filter] at hb2
  obtain ⟨hmem, hne⟩ := hb2
  constructor
  · simpa [List.isEmpty_iff] using hne
  · intro l hl
    simp only [List.mem_cons, List.not_mem_nil, or_false] at hmem
    rcases hmem with h | h | h <;> subst h <;> cases flip <;>
      simp_all [List.mem_reverse]

theorem printedBlocks_ne_nil (flip : Bool) (e d i : List Str)
    (h : ¬(e = [] ∧ d = [] ∧ i = [])) : printedBlocks flip e d i ≠ [] := by
  intro hcon
  apply h
  have hf : [if flip then e else e.reverse, if flip then d else d.reverse,
      if flip then i else i.reverse].filter (fun x => !x.isEmpty) = [] := by
    cases hff : flip <;> rw [printedBlocks] at hcon <;> simp only [hff] at hcon ⊢
    · simpa using hcon
    · exact hcon
  rw [List.filter_eq_nil_iff] at hf
  have h1 := hf _ (by simp : (if flip then e else e.reverse) ∈ _)
  have h2 := hf _ (by simp : (if flip then d else d.reverse) ∈ _)
  have h3 := hf _ (by simp : (if flip then i else i.reverse) ∈ _)
  cases flip <;> simp_all [List.isEmpty_iff]

/-- C8: with separators enabled, the printed output is exactly the
non-empty blocks (in print order, the final line right-trimmed by
`trim`) joined by single blank lines: one blank line between each pair
of adjacent blocks, every block line non-blank, and no leading or
trailing blank line. -/
theorem c8_separator_structure (cli : Cli) (r : RE) (e d i : List Str)
    (hsep : cli.separate = true)
    (hr : parseRE cli.search_term = some r)
    (hwf : ∀ l ∈ e ++ d ++ i, nl ∉ l ∧ ∃ c t, l = c :: t ∧ isWs c = false)
    (hne : ¬(e = [] ∧ d = [] ∧ i = [])) :
    ∀ bufs, color_matches cli false (e, d, i) = .ok bufs →
      linesOf (print_matches cli bufs)
        = (List.intersperse [([] : Str)]
            (updLast (updLast trimRight) (printedBlocks cli.flip e d i))).flatten
      ∧ (∀ b ∈ updLast (updLast trimRight) (printedBlocks cli.flip e d i),
          b ≠ [] ∧ ∀ l ∈ b, l ≠ [])
      ∧ (∀ x, (linesOf (print_matches cli bufs)).head? = some x → x ≠ [])
      ∧ (∀ x, (linesOf (print_matches cli bufs)).getLast? = some x → x ≠ []) := by
  intro bufs hb
  have hwf2 : ∀ l ∈ e ++ d ++ i, l ≠ [] ∧ nl ∉ l := by
    intro l hl
    obtain ⟨hnl, c, t, hct, hws⟩ := hwf l hl
    exact ⟨by simp [hct], hnl⟩
  set Bs := printedBlocks cli.flip e d i with hBsdef
  have hblocks : ∀ b ∈ Bs, b ≠ [] ∧ ∀ l ∈ b,
      nl ∉ l ∧ ∃ c t, l = c :: t ∧ isWs c = false := by
    intro b hbm
    obtain ⟨hbne, hlm⟩ := mem_printedBlocks cli.flip e d i b hbm
    refine ⟨hbne, fun l hl => ?_⟩
    rcases hlm l hl with h | h | h
    · exact hwf l (by simp [h])
    · exact hwf l (by simp [h])
    · exact hwf l (by simp [h])
  have hBsne : Bs ≠ [] := printedBlocks_ne_nil cli.flip e d i hne
  set LS := (List.intersperse [([] : Str)] Bs).flatten with hLSdef
  have hprint : print_matches cli bufs = trim (emitLines LS) ++ [nl] := by
    rw [print_matches_normal cli r e d i hr hwf2 bufs hb, renderBlocks]
    simp only [hsep, if_true]
    rw [intercalate_map_emitLines Bs]
  obtain ⟨B1, Brest, hBcons⟩ := List.exists_cons_of_ne_nil hBsne
  have hB1 : B1 ≠ [] ∧ ∀ l ∈ B1, nl ∉ l ∧ ∃ c t, l = c :: t ∧ isWs c = false :=
    hblocks B1 (by rw [hBcons]; simp)
  have hh : ∃ c t, LS.head? = some (c :: t) ∧ isWs c = false := by
    rw [hLSdef, hBcons, head?_flatten_intersperse _ B1 Brest hB1.1]
    obtain ⟨cB, tB, hcB⟩ := List.exists_cons_of_ne_nil hB1.1
    obtain ⟨hnl2, c, t, hct, hws⟩ := hB1.2 cB (by rw [hcB]; simp)
    exact ⟨c, t, by rw [hcB, hct]; rfl, hws⟩
  have hBL : Bs.getLast hBsne ≠ [] ∧ ∀ l ∈ Bs.getLast hBsne,
      nl ∉ l ∧ ∃ c t, l = c :: t ∧ isWs c = false :=
    hblocks (Bs.getLast hBsne) (List.getLast_mem hBsne)
  have hl : ∃ c t, LS.getLast? = some (c :: t) ∧ isWs c = false := by
    have h1 : LS.getLast? = (Bs.getLast hBsne).getLast? := by
      rw [hLSdef]
      exact getLast?_flatten_intersperse _ Bs (fun b hbm => (hblocks b hbm).1) hBsne
    have h2 : (Bs.getLast hBsne).getLast? =
        some ((Bs.getLast hBsne).getLast hBL.1) := List.getLast?_eq_getLast _ hBL.1
    obtain ⟨hnl2, c, t, hct, hws⟩ :=
      hBL.2 ((Bs.getLast hBsne).getLast hBL.1) (List.getLast_mem hBL.1)
    exact ⟨c, t, by rw [h1, h2, hct], hws⟩
  have hLSne : LS ≠ [] := by
    rw [hLSdef, hBcons]
    exact flatten_intersperse_ne_nil _ B1 Brest hB1.1
  have hmain : linesOf (print_matches cli bufs) = updLast trimRight LS := by
    rw [hprint, trim_emitLines LS hLSne hh hl]
    apply linesOf_emitLines
    intro l hl2
    rcases mem_updLast trimRight LS l hl2 with h | ⟨y, hy, hly⟩
    · rcases mem_flatten_intersperse _ Bs l (hLSdef ▸ h) with ⟨b, hbm, hlb⟩ | hsepm
      · exact ((hblocks b hbm).2 l hlb).1
      · simp only [List.mem_singleton] at hsepm
        subst hsepm
        simp
    · subst hly
      intro hnlmem
      have hymem := mem_of_mem_trimRight y nl hnlmem
      rcases mem_flatten_intersperse _ Bs y (hLSdef ▸ hy) with ⟨b, hbm, hlb⟩ | hsepm
      · exact ((hblocks b hbm).2 y hlb).1 hymem
      · simp only [List.mem_singleton] at hsepm
        subst hsepm
        simp at hymem
  have hS3 : updLast trimRight LS
      = (List.intersperse [([] : Str)] (updLast (updLast trimRight) Bs)).flatten := by
    rw [hLSdef]
    exact updLast_flatten_intersperse trimRight _ Bs (fun b hbm => (hblocks b hbm).1)
  have hstar : ∀ b ∈ updLast (updLast trimRight) Bs, b ≠ [] ∧ ∀ l ∈ b, l ≠ [] := by
    intro b hbm
    rcases mem_updLast (updLast trimRight) Bs b hbm with h | ⟨y, hy, hby⟩
    · obtain ⟨hbne2, hlines⟩ := hblocks b h
      refine ⟨hbne2, fun l hl2 => ?_⟩
      obtain ⟨_, c, t, hct, _⟩ := hlines l hl2
      simp [hct]
    · subst hby
      obtain ⟨hyne, hlines⟩ := hblocks y hy
      refine ⟨updLast_ne_nil _ y hyne, fun l hl2 => ?_⟩
      rcases mem_updLast trimRight y l hl2 with h2 | ⟨z, hz, hlz⟩
      · obtain ⟨_, c, t, hct, _⟩ := hlines l h2
        simp [hct]
      · subst hlz
        obtain ⟨_, c, t, hct, hws⟩ := hlines z hz
        rw [hct, trimRight_cons_of_not_ws c t hws]
        simp
  have hstar_ne : updLast (updLast trimRight) Bs ≠ [] := updLast_ne_nil _ Bs hBsne
  obtain ⟨B1s, Brests, hBconss⟩ := List.exists_cons_of_ne_nil hstar_ne
  have hB1s := hstar B1s (by rw [hBconss]; simp)
  refine ⟨by rw [hmain, hS3], hstar, ?_, ?_⟩
  · intro x hx
    rw [hmain, hS3, hBconss,
      head?_flatten_intersperse _ B1s Brests hB1s.1] at hx
    exact hB1s.2 x (List.mem_of_mem_head? hx)
  · intro x hx
    rw [hmain, hS3,
      getLast?_flatten_intersperse _ (updLast (updLast trimRight) Bs)
        (fun b hbm => (hstar b hbm).1) hstar_ne] at hx
    exact (hstar _ (List.getLast_mem hstar_ne)).2 x (List.mem_of_mem_getLast? hx)

/-- Witness for C8 at concrete buckets: the output lines are the two
blocks joined by exactly one blank line. -/
theorem c8_separator_structure_witness :
    linesOf (print_matches (mkCli true true "a".data) ("ax\n".data, "by\n".data, []))
      = (List.intersperse [([] : Str)]
          (updLast (updLast trimRight)
            (printedBlocks (mkCli true true "a".data).flip
              ["ax".data] ["by".data] []))).flatten :=
  (c8_separator_structure (mkCli true true "a".data) (RE.chr 'a')
    ["ax".data] ["by".data] [] rfl (by decide)
    (by
      intro l hl
      simp only [List.mem_append, List.mem_singleton, List.not_mem_nil,
        or_false] at hl
      rcases hl with h | h <;> subst h <;> exact ⟨by decide, _, _, rfl, by decide⟩)
    (by decide)
    ("ax\n".data, "by\n".data, []) rfl).1

/-! ## Highlighter (claim C9) -/

theorem matchRE_cons (ic : Bool) (r : RE) (c : Char) (s : Str) :
    matchRE ic r (c :: s) = matchRE ic (deriv ic r c) s := rfl

theorem longestMatch_matches (ic : Bool) : ∀ (s : Str) (r : RE) (n : Nat),
    longestMatch ic r s = some n → matchRE ic r (s.take n) = true
  | [], r, n => by
    intro h
    simp only [longestMatch] at h
    by_cases hn : nullable r = true
    · rw [if_pos hn] at h
      injection h with h
      subst h
      simpa [matchRE] using hn
    · rw [if_neg hn] at h
      cases h
  | c :: rest, r, n => by
    intro h
    simp only [longestMatch] at h
    cases hm : longestMatch ic (deriv ic r c) rest with
    | some m =>
      rw [hm] at h
      injection h with h
      subst h
      rw [List.take_succ_cons, matchRE_cons]
      exact longestMatch_matches ic rest (deriv ic r c) m hm
    | none =>
      rw [hm] at h
      by_cases hn : nullable r = true
      · rw [if_pos hn] at h
        injection h with h
        subst h
        simpa [matchRE] using hn
      · rw [if_neg hn] at h
        cases h

theorem hlLine_no_match (ic : Bool) (r : RE) (pre post : Str) : ∀ l : Str,
    reSearch ic r l = false → hlLine ic r pre post l = l
  | [] => by
    intro h
    simp [hlLine]
  | c :: rest => by
    intro h
    rw [reSearch] at h
    rw [Bool.or_eq_false_iff] at h
    have h1 : longestMatch ic r (c :: rest) = none := by
      cases hm : longestMatch ic r (c :: rest) with
      | none => rfl
      | some m => rw [hm] at h; simp at h
    rw [hlLine, h1]
    rw [hlLine_no_match ic r pre post rest h.2]

theorem hlLine_spec (ic : Bool) (r : RE) (pre post : Str) : ∀ (N : Nat) (l : Str),
    l.length ≤ N → HlSpec ic r pre post l (hlLine ic r pre post l)
  | N, [] => by
    intro _
    exact ⟨[], by simp, by simp, by simp [hlLine]⟩
  | 0, c :: rest => by
    intro hlen
    simp at hlen
  | N + 1, c :: rest => by
    intro hlen
    simp only [List.length_cons, Nat.add_le_add_iff_right] at hlen
    cases hm : longestMatch ic r (c :: rest) with
    | some n =>
      cases n with
      | zero =>
        obtain ⟨segs, hc2, hl2, ho2⟩ :=
          hlLine_spec ic r pre post N rest hlen
        rw [hlLine, hm]
        cases segs with
        | nil =>
          refine ⟨[([c], [])], by simp, ?_, ?_⟩
          · simp only [List.map_nil, List.flatten_nil] at hl2
            subst hl2
            simp
          · simp only [List.map_nil, List.flatten_nil] at ho2
            rw [ho2]
            simp
        | cons p t =>
          refine ⟨(c :: p.1, p.2) :: t, ?_, ?_, ?_⟩
          · intro q hq
            rcases List.mem_cons.mp hq with hq2 | hq2
            · subst hq2
              exact hc2 p (List.mem_cons_self p t)
            · exact hc2 q (List.mem_cons_of_mem p hq2)
          · simp only [List.map_cons, List.flatten_cons] at hl2 ⊢
            rw [hl2]
            simp
          · simp only [List.map_cons, List.flatten_cons] at ho2 ⊢
            rw [ho2]
            simp
      | succ m =>
        have hdrop : (rest.drop m).length ≤ N := by
          have := List.length_drop m rest
          omega
        obtain ⟨segs, hc2, hl2, ho2⟩ :=
          hlLine_spec ic r pre post N (rest.drop m) hdrop
        rw [hlLine, hm]
        refine ⟨([], (c :: rest).take (m + 1)) :: segs, ?_, ?_, ?_⟩
        · intro q hq
          rcases List.mem_cons.mp hq with hq2 | hq2
          · subst hq2
            exact Or.inr (longestMatch_matches ic (c :: rest) r (m + 1) hm)
          · exact hc2 q hq2
        · simp only [List.map_cons, List.flatten_cons, List.nil_append]
          rw [← hl2]
          exact (List.take_append_drop (m + 1) (c :: rest)).symm
        · simp only [List.map_cons, List.flatten_cons, List.nil_append,
            List.take_succ_cons]
          rw [if_neg (List.cons_ne_nil c (rest.take m)), ← ho2]
    | none =>
      obtain ⟨segs, hc2, hl2, ho2⟩ :=
        hlLine_spec ic r pre post N rest hlen
      rw [hlLine, hm]
      cases segs with
      | nil =>
        refine ⟨[([c], [])], by simp, ?_, ?_⟩
        · simp only [List.map_nil, List.flatten_nil] at hl2
          subst hl2
          simp
        · simp only [List.map_nil, List.flatten_nil] at ho2
          rw [ho2]
          simp
      | cons p t =>
        refine ⟨(c :: p.1, p.2) :: t, ?_, ?_, ?_⟩
        · intro q hq
          rcases List.mem_cons.mp hq with hq2 | hq2
          · subst hq2
            exact hc2 p (List.mem_cons_self p t)
          · exact hc2 q (List.mem_cons_of_mem p hq2)
        · simp only [List.map_cons, List.flatten_cons] at hl2 ⊢
          rw [hl2]
          simp
        · simp only [List.map_cons, List.flatten_cons] at ho2 ⊢
          rw [ho2]
          simp

theorem searchEmitHl_colored (ic : Bool) (r : RE) (pre post : Str) (b : List Str)
    (hwf : ∀ l ∈ b, l ≠ [] ∧ nl ∉ l) :
    searchEmitHl true ic r pre post ([nl].intercalate b)
      = (b.map (fun l => termLine (hlLine ic r pre post l))).flatten := by
  cases hb : b with
  | nil => rfl
  | cons l rest =>
    rw [← hb, searchEmitHl, linesOf_intercalate b (by rw [hb]; simp) hwf]
    simp

/-- C9: the colored emission of every bucket prints every input line in
order (each as its highlighted form plus newline terminator, nothing
dropped); a line in which the term regex matches nowhere is emitted
unmodified; and every line's highlighted form differs from the original
only by wrapping genuine matches of the term in the bucket's emphasis
(the unmarked segments are verbatim). -/
theorem c9_highlighter (cli : Cli) (r : RE) (e d i : List Str)
    (bufs : Str × Str × Str)
    (hr : parseRE cli.search_term = some r)
    (hco : color_matches cli true (e, d, i) = .ok bufs)
    (hwf : ∀ l ∈ e ++ d ++ i, l ≠ [] ∧ nl ∉ l) :
    bufs.1 = ((if cli.flip then e else e.reverse).map
        (fun l => termLine
          (hlLine cli.ignore_case r (emphPre cli.exact_color) emphPost l))).flatten
    ∧ bufs.2.1 = ((if cli.flip then d else d.reverse).map
        (fun l => termLine
          (hlLine cli.ignore_case r (emphPre cli.direct_color) emphPost l))).flatten
    ∧ bufs.2.2 = ((if cli.flip then i else i.reverse).map
        (fun l => termLine
          (hlLine cli.ignore_case r (emphPre cli.indirect_color) emphPost l))).flatten
    ∧ (∀ (pre post l : Str), reSearch cli.ignore_case r l = false →
        hlLine cli.ignore_case r pre post l = l)
    ∧ (∀ (pre post l : Str), HlSpec cli.ignore_case r pre post l
        (hlLine cli.ignore_case r pre post l)) := by
  have h1 : ∀ l ∈ (if cli.flip then e else e.reverse), l ≠ [] ∧ nl ∉ l := by
    intro l hl
    apply hwf
    cases hf : cli.flip <;> rw [hf] at hl <;> simp_all
  have h2 : ∀ l ∈ (if cli.flip then d else d.reverse), l ≠ [] ∧ nl ∉ l := by
    intro l hl
    apply hwf
    cases hf : cli.flip <;> rw [hf] at hl <;> simp_all
  have h3 : ∀ l ∈ (if cli.flip then i else i.reverse), l ≠ [] ∧ nl ∉ l := by
    intro l hl
    apply hwf
    cases hf : cli.flip <;> rw [hf] at hl <;> simp_all
  rw [color_matches] at hco
  rw [hr] at hco
  simp only [] at hco
  injection hco with hco
  subst hco
  refine ⟨?_, ?_, ?_, ?_, ?_⟩
  · exact searchEmitHl_colored cli.ignore_case r (emphPre cli.exact_color) emphPost _ h1
  · exact searchEmitHl_colored cli.ignore_case r (emphPre cli.direct_color) emphPost _ h2
  · exact searchEmitHl_colored cli.ignore_case r (emphPre cli.indirect_color) emphPost _ h3
  · intro pre post l hno
    exact hlLine_no_match cli.ignore_case r pre post l hno
  · intro pre post l
    exact hlLine_spec cli.ignore_case r pre post l.length l (le_refl _)

/-- Witness for C9: a line without any match of the term is emitted
unmodified by the highlighter. -/
theorem c9_highlighter_witness :
    hlLine true (RE.chr 'q') "P".data "Q".data "ax".data = "ax".data :=
  (c9_highlighter (mkCli true true "q".data) (RE.chr 'q') ["ax".data] [] [] _
    (by decide) rfl (by decide)).2.2.2.1 "P".data "Q".data "ax".data (by decide)

end Nps




